import Mathlib

/-!
Verification of the metrics-aggregation core of the repository:
`youtube_duration_calculator.py` (VideoIdentifierParser / DurationAggregator)
and `update_vocabulary.py` (StreakCalculator / BadgeRenderer).

Text is modelled as `List Char`.  External collaborators (the CSV file, the
yt-dlp duration lookup, the Anki datastore) are parameters of the embedded
functions, exactly at the boundaries the source delegates to them.
-/

namespace Spec2Proof

/-! ## String helpers shared by both embeddings -/

/-- The ASCII whitespace characters removed by Python `str.strip()`. -/
def isPySpace (c : Char) : Bool :=
  c = ' ' || c = '\t' || c = '\n' || c = '\r' || c = '\x0b' || c = '\x0c'

/-- Python `str.strip()`: remove leading and trailing whitespace. -/
def pyStrip (s : List Char) : List Char :=
  ((s.dropWhile isPySpace).reverse.dropWhile isPySpace).reverse

/-- Does `pat` occur at the start of `s`?  (Bool version of prefix test.) -/
def startsWith : List Char → List Char → Bool
  | [], _ => true
  | _ :: _, [] => false
  | p :: ps, c :: cs => p = c && startsWith ps cs

/-- Python `pat in s`: substring containment. -/
def strContains (s pat : List Char) : Bool :=
  match s with
  | [] => startsWith pat []
  | _ :: cs => startsWith pat s || strContains cs pat

/-- Split `s` at the first occurrence of `sep`: returns the part before it and,
if `sep` occurs, the part after it. -/
def breakOn (sep : List Char) : List Char → (List Char × Option (List Char))
  | [] => ([], if sep = [] then some [] else none)
  | c :: cs =>
    if startsWith sep (c :: cs) then ([], some ((c :: cs).drop sep.length))
    else
      let r := breakOn sep cs
      (c :: r.1, r.2)

/-- The scan of Python `s.split(sep)`, with a fuel argument for structural
termination; each recursive call strictly shortens the input, so any fuel
of at least the input length computes the split (and at fuel 0 the input
is empty, where `[s]` is already the correct answer). -/
def pySplitF (sep : List Char) : Nat → List Char → List (List Char)
  | 0, s => [s]
  | fuel + 1, s =>
    match breakOn sep s with
    | (pre, none) => [pre]
    | (pre, some rest) => pre :: pySplitF sep fuel rest

/-- Python `s.split(sep)` for a fixed separator (the source only splits on
non-empty separators). -/
def pySplit (sep s : List Char) : List (List Char) :=
  if sep = [] then [s] else pySplitF sep s.length s

/-- A separator with no border (no proper prefix that is also a suffix)
cannot overlap itself across a boundary; `youtu.be/` and `v=` are such. -/
abbrev NoBorder (sep : List Char) : Prop :=
  ∀ k < sep.length, 0 < k → sep.take k ≠ sep.drop (sep.length - k)

/-! ## `youtube_duration_calculator.py` -/

/-- `extract_video_id` from `youtube_duration_calculator.py`.

```
if "youtu.be/" in url:
    video_id = url.split("youtu.be/")[-1].split("?")[0]
elif "youtube.com/watch" in url:
    if "v=" in url:
        video_id = url.split("v=")[-1].split("&")[0]
    else:
        return None
else:
    return None
return video_id if video_id else None
``` -/
def noneIfEmpty (v? : Option (List Char)) : Option (List Char) :=
  match v? with
  | some v => if v = [] then none else some v
  | none => none

def extract_video_id (url : List Char) : Option (List Char) :=
  noneIfEmpty
    (if strContains url ("youtu.be/".toList) then
      some ((pySplit ("?".toList) ((pySplit ("youtu.be/".toList) url).getLastD [])).headD [])
    else if strContains url ("youtube.com/watch".toList) then
      if strContains url ("v=".toList) then
        some ((pySplit ("&".toList) ((pySplit ("v=".toList) url).getLastD [])).headD [])
      else none
    else none)

/-- Outcome of one call to the external duration-lookup collaborator
(yt-dlp): `none` models an exception, `some d` a successful lookup whose
info reports duration `d` (the source defaults a missing duration to 0). -/
abbrev Lookup := List Char → Option Nat

/-- `get_video_duration`: returns the fetched duration, or 0 when the
collaborator raises (`except Exception: return 0`). -/
def get_video_duration (lookup : Lookup) (url : List Char) : Nat :=
  match lookup url with
  | some d => d
  | none => 0

/-- The running counters of `calculate_total_duration`:
`total_seconds`, `video_count` (items attempted) and `successful_count`. -/
structure Totals where
  totalSeconds : Nat
  videoCount : Nat
  successfulCount : Nat
deriving DecidableEq, Repr

/-- The per-item loop of `calculate_total_duration`:

```
for i, url in enumerate(urls, 1):
    url = url.strip()
    if not url:
        continue
    video_count += 1
    duration = get_video_duration(url)
    if duration > 0:
        total_seconds += duration
        successful_count += 1
``` -/
def processUrls (lookup : Lookup) : List (List Char) → Totals
  | [] => ⟨0, 0, 0⟩
  | url :: rest =>
    let t := processUrls lookup rest
    let stripped := pyStrip url
    if stripped = [] then t
    else
      let duration := get_video_duration lookup stripped
      if duration > 0 then
        ⟨duration + t.totalSeconds, t.videoCount + 1, t.successfulCount + 1⟩
      else
        ⟨t.totalSeconds, t.videoCount + 1, t.successfulCount⟩

/-- A CSV row, reduced to its `row.get('URL')` field: `none` when the field
is absent.  `urls = [row['URL'] for row in reader if row.get('URL')]` keeps
the rows whose field is present and truthy (non-empty). -/
def csvUrls (rows : List (Option (List Char))) : List (List Char) :=
  rows.filterMap fun r =>
    match r with
    | some u => if u = [] then none else some u
    | none => none

/-- The ways reading the CSV file can fail in the source:
`FileNotFoundError` or any other exception. -/
inductive CsvError where
  | fileNotFound
  | other
deriving DecidableEq, Repr

/-- Observable result of `calculate_total_duration`: the returned hours
(`total_seconds / 3600`, Python true division, modelled in ℚ), whether the
"No URLs found in CSV file" message was printed, whether a file-error
message was printed, and the final counters. -/
structure CalcResult where
  hours : ℚ
  noUrlsMsg : Bool
  errMsg : Bool
  totals : Totals
deriving DecidableEq, Repr

/-- `calculate_total_duration`, with the CSV read modelled as an
`Except CsvError` input (the `try`/`except` around `open`/`csv.DictReader`)
and the duration lookup as a collaborator function. -/
def calculate_total_duration (csv : Except CsvError (List (Option (List Char))))
    (lookup : Lookup) : CalcResult :=
  match csv with
  | .error _ => ⟨0, false, true, ⟨0, 0, 0⟩⟩
  | .ok rows =>
    let urls := csvUrls rows
    if urls = [] then ⟨0, true, false, ⟨0, 0, 0⟩⟩
    else
      let t := processUrls lookup urls
      ⟨(t.totalSeconds : ℚ) / 3600, false, false, t⟩

/-! ## `update_vocabulary.py`: streak calculator -/

/-- The consecutive-day walk of `get_current_streak`.  Dates are modelled as
integer day numbers; `today - timedelta(days=i)` becomes `today - i`.

```
for i, (date_str,) in enumerate(rows):
    review_date = ...
    expected_date = today - timedelta(days=i)
    if review_date == expected_date:
        streak += 1
    else:
        break
return streak
``` -/
def streakWalk (today : ℤ) : List ℤ → ℤ → Nat
  | [], _ => 0
  | d :: rest, i => if d = today - i then streakWalk today rest (i + 1) + 1 else 0

/-- `get_current_streak`, as a function of the (externally produced,
`SELECT DISTINCT ... ORDER BY review_date DESC`) list of review dates and
of the reference date `today`.  `if not rows: return 0` then the walk. -/
def get_current_streak (rows : List ℤ) (today : ℤ) : Nat :=
  match rows with
  | [] => 0
  | _ :: _ => streakWalk today rows 0

/-! ## `update_vocabulary.py`: badge renderer

`update_readme_badge` uses two regular expressions:

* `vocab_pattern = !\[.*?\]\(https://img\.shields\.io/badge/(?:词汇|Anki%20Chinese%20Cards)-\d+-blue\)`
* `streak_pattern = !\[Day Streak\]\(https://img\.shields\.io/badge/Day%20Streak-\d+-orange\)`

with `re.search` (is there a match?) and `re.sub` (replace every
non-overlapping match, scanning left to right; at each position the lazy
`.*?` takes the shortest extent, `\d+` the longest).  The two patterns are
concrete, so the matcher is embedded as a specialised scanner over
`List Char`.  `\d` is modelled as the ASCII digits. -/

/-- ASCII digit test (model of `\d`). -/
def isDig (c : Char) : Bool := '0' ≤ c && c ≤ '9'

/-- Decimal rendering of a natural number (Python `f"{n}"` for the
non-negative counts the program produces). -/
def natDigits (n : Nat) : List Char :=
  if h : n < 10 then [Char.ofNat (48 + n)]
  else natDigits (n / 10) ++ [Char.ofNat (48 + n % 10)]
termination_by n
decreasing_by exact Nat.div_lt_self (by omega) (by omega)

/-- `vocab_badge_markdown`. -/
def vocabBadge (word_count : Nat) : List Char :=
  ("![Anki Chinese Cards](https://img.shields.io/badge/Anki%20Chinese%20Cards-".toList)
    ++ natDigits word_count ++ ("-blue)".toList)

/-- `streak_badge_markdown`. -/
def streakBadge (streak : Nat) : List Char :=
  ("![Day Streak](https://img.shields.io/badge/Day%20Streak-".toList)
    ++ natDigits streak ++ ("-orange)".toList)

/-- Match a literal at the start of the input; on success return the rest. -/
def stripP : List Char → List Char → Option (List Char)
  | [], s => some s
  | _ :: _, [] => none
  | p :: ps, c :: cs => if p = c then stripP ps cs else none

/-- `\d+` (greedy, at least one digit); on success return the rest.
The pattern continuations used below start with a non-digit, so greedy
matching without backtracking is exact. -/
def digits1 (s : List Char) : Option (List Char) :=
  match s.takeWhile isDig with
  | [] => none
  | _ :: _ => some (s.dropWhile isDig)

/-- The literal `](https://img.shields.io/badge/` of `vocab_pattern`. -/
def badgeLit : List Char := "](https://img.shields.io/badge/".toList

/-- The alternation `(?:词汇|Anki%20Chinese%20Cards)`. -/
def altV (s : List Char) : Option (List Char) :=
  match stripP ("词汇".toList) s with
  | some r => some r
  | none => stripP ("Anki%20Chinese%20Cards".toList) s

/-- The part of `vocab_pattern` after `.*?`:
`\]\(https://img\.shields\.io/badge/(?:词汇|Anki%20Chinese%20Cards)-\d+-blue\)`. -/
def tailV (s : List Char) : Option (List Char) :=
  (stripP badgeLit s).bind fun s1 =>
  (altV s1).bind fun s2 =>
  (stripP (['-']) s2).bind fun s3 =>
  (digits1 s3).bind fun s4 =>
  stripP ("-blue)".toList) s4

/-- `.*?` followed by `tailV`: lazy scan — the shortest dot-extent whose
continuation matches wins; `.` never crosses a newline. -/
def lazyV (s : List Char) : Option (List Char) :=
  match tailV s with
  | some r => some r
  | none =>
    match s with
    | [] => none
    | c :: cs => if c = '\n' then none else lazyV cs

/-- A `vocab_pattern` match anchored at the start of `s`; on success
returns the input minus the matched text. -/
def matchV (s : List Char) : Option (List Char) :=
  match s with
  | a :: b :: rest => if a = '!' then if b = '[' then lazyV rest else none else none
  | _ => none

/-- `re.search(vocab_pattern, s)`: is there a match at any position? -/
def searchV : List Char → Bool
  | [] => false
  | c :: cs => (matchV (c :: cs)).isSome || searchV cs

/-- `re.sub(vocab_pattern, B, s)`: scan left to right; replace each
non-overlapping match with `B` and continue after it. -/
def subVGo (B : List Char) : List Char → List Char
  | [] => []
  | c :: cs =>
    match hm : matchV (c :: cs) with
    | some r => B ++ subVGo B r
    | none => c :: subVGo B cs
termination_by s => s.length
decreasing_by
  · -- a match consumes at least the two anchor characters
    rename_i c
    have hstrip : ∀ (p s₀ r₀ : List Char), stripP p s₀ = some r₀ → r₀.length ≤ s₀.length := by
      intro p
      induction p with
      | nil =>
        intro s₀ r₀ h
        simp only [stripP, Option.some.injEq] at h
        subst h
        exact Nat.le_refl _
      | cons q qs ih =>
        intro s₀ r₀ h
        cases s₀ with
        | nil => exact absurd h (by simp [stripP])
        | cons c₀ cs₀ =>
          simp only [stripP] at h
          by_cases hqc : q = c₀
          · rw [if_pos hqc] at h
            exact Nat.le_succ_of_le (ih cs₀ r₀ h)
          · rw [if_neg hqc] at h
            exact absurd h (by simp)
    have hstrips : ∀ (p s₀ r₀ : List Char), p ≠ [] → stripP p s₀ = some r₀ →
        r₀.length < s₀.length := by
      intro p s₀ r₀ hp h
      cases p with
      | nil => exact absurd rfl hp
      | cons q qs =>
        cases s₀ with
        | nil => exact absurd h (by simp [stripP])
        | cons c₀ cs₀ =>
          simp only [stripP] at h
          by_cases hqc : q = c₀
          · rw [if_pos hqc] at h
            exact Nat.lt_succ_of_le (hstrip qs cs₀ r₀ h)
          · rw [if_neg hqc] at h
            exact absurd h (by simp)
    have hdig : ∀ (s₀ r₀ : List Char), digits1 s₀ = some r₀ → r₀.length ≤ s₀.length := by
      intro s₀ r₀ h
      simp only [digits1] at h
      split at h
      · exact absurd h (by simp)
      · have hr : r₀ = s₀.dropWhile isDig := ((Option.some.injEq _ _).mp h).symm
        subst hr
        exact (List.dropWhile_sublist _).length_le
    have halt : ∀ (s₀ r₀ : List Char), altV s₀ = some r₀ → r₀.length ≤ s₀.length := by
      intro s₀ r₀ h
      simp only [altV] at h
      rcases hcn : stripP ("词汇".toList) s₀ with _ | r1
      · rw [hcn] at h
        exact hstrip _ _ _ h
      · rw [hcn] at h
        have hr : r₀ = r1 := ((Option.some.injEq _ _).mp h).symm
        subst hr
        exact hstrip _ _ _ hcn
    have htail : ∀ (s₀ r₀ : List Char), tailV s₀ = some r₀ → r₀.length < s₀.length := by
      intro s₀ r₀ h
      simp only [tailV, Option.bind_eq_some] at h
      obtain ⟨s1, h1, s2, h2, s3, h3, s4, h4, h5⟩ := h
      have l1 := hstrips _ _ _ (by simp [badgeLit]) h1
      have l2 := halt _ _ h2
      have l3 := hstrips _ _ _ (by simp) h3
      have l4 := hdig _ _ h4
      have l5 := hstrip _ _ _ h5
      omega
    have hlazy : ∀ (s₀ r₀ : List Char), lazyV s₀ = some r₀ → r₀.length ≤ s₀.length := by
      intro s₀
      induction s₀ with
      | nil =>
        intro r₀ h
        have ht : tailV [] = none := by decide
        simp only [lazyV, ht] at h
        exact absurd h (by simp)
      | cons c₀ cs₀ ih =>
        intro r₀ h
        simp only [lazyV] at h
        rcases ht : tailV (c₀ :: cs₀) with _ | r1
        · rw [ht] at h
          simp only at h
          by_cases hnl : c₀ = '\n'
          · rw [if_pos hnl] at h
            exact absurd h (by simp)
          · rw [if_neg hnl] at h
            exact Nat.le_succ_of_le (ih r₀ h)
        · rw [ht] at h
          simp only [Option.some.injEq] at h
          subst h
          exact Nat.le_of_lt (htail _ _ ht)
    cases cs with
    | nil => simp [matchV] at hm
    | cons b rest =>
      simp only [matchV] at hm
      by_cases hc : c = '!'
      · rw [if_pos hc] at hm
        by_cases hb : b = '['
        · rw [if_pos hb] at hm
          have := hlazy _ _ hm
          simp only [List.length_cons]
          omega
        · rw [if_neg hb] at hm
          exact absurd hm (by simp)
      · rw [if_neg hc] at hm
        exact absurd hm (by simp)
  · simp


/-- The literal part of `streak_pattern` before `\d+`:
`!\[Day Streak\]\(https://img\.shields\.io/badge/Day%20Streak-`. -/
def streakLit : List Char := "![Day Streak](https://img.shields.io/badge/Day%20Streak-".toList

/-- The literal `-orange)` closing `streak_pattern`. -/
def orangeLit : List Char := "-orange)".toList

/-- A `streak_pattern` match anchored at the start of `s` (the pattern is
literal except for `\d+`); on success returns the input minus the match. -/
def matchS (s : List Char) : Option (List Char) :=
  (stripP streakLit s).bind fun s1 =>
  (digits1 s1).bind fun s2 =>
  stripP orangeLit s2

/-- `re.search(streak_pattern, s)`. -/
def searchS : List Char → Bool
  | [] => false
  | c :: cs => (matchS (c :: cs)).isSome || searchS cs

/-- `re.sub(streak_pattern, S, s)`. -/
def subSGo (S : List Char) : List Char → List Char
  | [] => []
  | c :: cs =>
    match hm : matchS (c :: cs) with
    | some r => S ++ subSGo S r
    | none => c :: subSGo S cs
termination_by s => s.length
decreasing_by
  · rename_i c
    have hstrip : ∀ (p s₀ r₀ : List Char), stripP p s₀ = some r₀ → r₀.length ≤ s₀.length := by
      intro p
      induction p with
      | nil =>
        intro s₀ r₀ h
        simp only [stripP, Option.some.injEq] at h
        subst h
        exact Nat.le_refl _
      | cons q qs ih =>
        intro s₀ r₀ h
        cases s₀ with
        | nil => exact absurd h (by simp [stripP])
        | cons c₀ cs₀ =>
          simp only [stripP] at h
          by_cases hqc : q = c₀
          · rw [if_pos hqc] at h
            exact Nat.le_succ_of_le (ih cs₀ r₀ h)
          · rw [if_neg hqc] at h
            exact absurd h (by simp)
    simp only [matchS, Option.bind_eq_some] at hm
    obtain ⟨s1, h1, s2, h2, h3⟩ := hm
    have l1 : s1.length < (c :: cs).length := by
      have hq : streakLit = '!' :: ("[Day Streak](https://img.shields.io/badge/Day%20Streak-".toList) := by decide
      rw [hq] at h1
      simp only [stripP] at h1
      by_cases hqc : ('!' : Char) = c
      · rw [if_pos hqc] at h1
        exact Nat.lt_succ_of_le (hstrip _ cs s1 h1)
      · rw [if_neg hqc] at h1
        exact absurd h1 (by simp)
    have l2 : s2.length ≤ s1.length := by
      simp only [digits1] at h2
      split at h2
      · exact absurd h2 (by simp)
      · have hr : s2 = s1.dropWhile isDig := ((Option.some.injEq _ _).mp h2).symm
        subst hr
        exact (List.dropWhile_sublist _).length_le
    have l3 := hstrip _ _ _ h3
    omega
  · simp

/-- Python `content.split('\n')`. -/
def splitLines : List Char → List (List Char)
  | [] => [[]]
  | c :: cs =>
    if c = '\n' then [] :: splitLines cs
    else
      match splitLines cs with
      | [] => [[c]]
      | l :: ls => (c :: l) :: ls

/-- Python `'\n'.join(lines)`. -/
def joinLines : List (List Char) → List Char
  | [] => []
  | [l] => l
  | l :: l2 :: ls => l ++ '\n' :: joinLines (l2 :: ls)

/-- Python `list.insert(i, a)`: insert before index `i`, appending when `i`
is past the end. -/
def pyInsert {α : Type} : Nat → α → List α → List α
  | 0, a, l => a :: l
  | _ + 1, a, [] => [a]
  | n + 1, a, x :: xs => x :: pyInsert n a xs

/-- `'Anki Chinese Cards' in line or '词汇' in line`. -/
def hasVocabKey (line : List Char) : Bool :=
  strContains line ("Anki Chinese Cards".toList) || strContains line ("词汇".toList)

/-- The fallback insertion loop for the streak badge: insert after the
first line containing a vocabulary-badge marker, then stop (`break`);
if no line matches, leave the lines unchanged. -/
def insertStreakLines (sb : List Char) : List (List Char) → List (List Char)
  | [] => []
  | l :: ls => if hasVocabKey l then l :: sb :: ls else l :: insertStreakLines sb ls

/-- `update_readme_badge` from `update_vocabulary.py`, as a pure function
from the document text (and the two counts) to the updated text.

```
if re.search(vocab_pattern, content):
    content = re.sub(vocab_pattern, vocab_badge_markdown, content)
else:
    lines = content.split('\n')
    lines.insert(1, '')
    lines.insert(2, vocab_badge_markdown)
    content = '\n'.join(lines)
if re.search(streak_pattern, content):
    content = re.sub(streak_pattern, streak_badge_markdown, content)
else:
    lines = content.split('\n')
    for i, line in enumerate(lines):
        if 'Anki Chinese Cards' in line or '词汇' in line:
            lines.insert(i + 1, streak_badge_markdown)
            break
    content = '\n'.join(lines)
``` -/
def update_readme_badge (word_count streak : Nat) (content : List Char) : List Char :=
  let vb := vocabBadge word_count
  let sb := streakBadge streak
  let content1 :=
    if searchV content then subVGo vb content
    else joinLines (pyInsert 2 vb (pyInsert 1 [] (splitLines content)))
  if searchS content1 then subSGo sb content1
  else joinLines (insertStreakLines sb (splitLines content1))

/-- Strings on which `re.sub(vocab_pattern, B, ·)` acts as the identity,
described structurally: at every position either no vocab match starts
(`cons`), or an exact copy of the replacement `B` sits there (`badge`). -/
inductive NormV (B : List Char) : List Char → Prop
  | nil : NormV B []
  | cons (c : Char) (cs : List Char) :
      matchV (c :: cs) = none → NormV B cs → NormV B (c :: cs)
  | badge (t : List Char) : NormV B t → NormV B (B ++ t)

/-! ## Streak calculator: lemmas and claims C3, C4 -/

theorem get_current_streak_eq_walk (rows : List ℤ) (today : ℤ) :
    get_current_streak rows today = streakWalk today rows 0 := by
  cases rows <;> rfl

theorem streakWalk_le_length (today : ℤ) :
    ∀ (rows : List ℤ) (j : ℤ), streakWalk today rows j ≤ rows.length := by
  intro rows
  induction rows with
  | nil => intro j; simp [streakWalk]
  | cons d rest ih =>
    intro j
    simp only [streakWalk]
    by_cases hd : d = today - j
    · rw [if_pos hd]
      exact Nat.succ_le_succ (ih (j + 1))
    · rw [if_neg hd]
      exact Nat.zero_le _

theorem streakWalk_get (today : ℤ) :
    ∀ (rows : List ℤ) (j : ℤ) (i : Nat), i < streakWalk today rows j →
      rows[i]? = some (today - (j + i)) := by
  intro rows
  induction rows with
  | nil => intro j i h; simp [streakWalk] at h
  | cons d rest ih =>
    intro j i h
    simp only [streakWalk] at h
    by_cases hd : d = today - j
    · rw [if_pos hd] at h
      cases i with
      | zero =>
        simp only [List.getElem?_cons_zero, Option.some.injEq, hd]
        push_cast
        ring
      | succ i =>
        simp only [List.getElem?_cons_succ]
        have := ih (j + 1) i (by omega)
        rw [this]
        congr 1
        push_cast
        ring
    · rw [if_neg hd] at h
      omega

theorem streakWalk_maximal (today : ℤ) :
    ∀ (rows : List ℤ) (j : ℤ) (k : Nat), k ≤ rows.length →
      (∀ i : Nat, i < k → rows[i]? = some (today - (j + i))) →
      k ≤ streakWalk today rows j := by
  intro rows
  induction rows with
  | nil => intro j k hk _; simpa [streakWalk] using hk
  | cons d rest ih =>
    intro j k hk hall
    cases k with
    | zero => exact Nat.zero_le _
    | succ k =>
      have h0 := hall 0 (Nat.succ_pos _)
      simp only [List.getElem?_cons_zero, Option.some.injEq] at h0
      have hd : d = today - j := by
        rw [h0]; push_cast; ring
      simp only [streakWalk, if_pos hd]
      have : k ≤ streakWalk today rest (j + 1) := by
        refine ih (j + 1) k (by simpa using hk) ?_
        intro i hi
        have := hall (i + 1) (by omega)
        simp only [List.getElem?_cons_succ] at this
        rw [this]
        congr 1
        push_cast
        ring
      omega

/-- C3: for a reverse-chronological, deduplicated list of activity dates and
a reference date `today`, `get_current_streak` returns the length of the
maximal prefix of the expected sequence `today, today-1, today-2, ...`
present in the input in lock-step order; it returns 0 whenever today is
absent (in particular on empty input), and 3 on exactly
`{today, today-1, today-2}` with a gap at `today-3`. -/
theorem C3_streak_lockstep (rows : List ℤ) (today : ℤ)
    (_hsorted : rows.Chain' (· > ·)) :
    (get_current_streak rows today ≤ rows.length
      ∧ (∀ i : Nat, i < get_current_streak rows today → rows[i]? = some (today - i))
      ∧ (∀ k : Nat, k ≤ rows.length →
          (∀ i : Nat, i < k → rows[i]? = some (today - i)) →
          k ≤ get_current_streak rows today)
      ∧ (today ∉ rows → get_current_streak rows today = 0))
    ∧ (∀ t : ℤ, get_current_streak [t, t - 1, t - 2] t = 3) := by
  constructor
  · rw [get_current_streak_eq_walk]
    refine ⟨streakWalk_le_length today rows 0, ?_, ?_, ?_⟩
    · intro i hi
      have := streakWalk_get today rows 0 i hi
      simpa using this
    · intro k hk hall
      refine streakWalk_maximal today rows 0 k hk ?_
      intro i hi
      simpa using hall i hi
    · intro habs
      cases rows with
      | nil => rfl
      | cons d rest =>
        simp only [streakWalk]
        have hd : ¬ d = today - 0 := by
          intro h
          exact habs (by simp [h])
        rw [if_neg hd]
  · intro t
    have h0 : t = t - (0 : ℤ) := by ring
    have h1 : t - 1 = t - (0 + 1 : ℤ) := by ring
    have h2 : t - 2 = t - (0 + 1 + 1 : ℤ) := by ring
    simp [get_current_streak, streakWalk, ← h0, ← h1, ← h2]

/-- Witness for C3 at the concrete input `rows = [5, 4]`, `today = 5`. -/
theorem C3_streak_lockstep_witness :
    get_current_streak [(5 : ℤ), 4] 5 ≤ ([(5 : ℤ), 4]).length
    ∧ ([(5 : ℤ), 4])[0]? = some ((5 : ℤ) - ((0 : ℕ) : ℤ))
    ∧ get_current_streak [(7 : ℤ), 7 - 1, 7 - 2] 7 = 3 := by
  have h := C3_streak_lockstep [(5 : ℤ), 4] 5
    (by rw [List.chain'_cons]; exact ⟨by norm_num, List.chain'_singleton _⟩)
  exact ⟨h.1.1, h.1.2.1 0 (by decide), h.2 7⟩

/-- C4 fails on the code: the walk does not deduplicate, so on
`rows = [0, 0, -1]` with `today = 0` it returns 1, while on the
date-deduplicated list `[0, -1]` it returns 2. -/
theorem C4_counterexample :
    get_current_streak [(0 : ℤ), 0, -1] 0 = 1
    ∧ List.dedup [(0 : ℤ), 0, -1] = [0, -1]
    ∧ get_current_streak (List.dedup [(0 : ℤ), 0, -1]) 0 = 2
    ∧ get_current_streak [(0 : ℤ), 0, -1] 0
        ≠ get_current_streak (List.dedup [(0 : ℤ), 0, -1]) 0 := by
  refine ⟨by decide, by decide, by decide, by decide⟩

/-- C4 (amended): the streak calculator does not deduplicate by date before
the expected-date walk; a duplicate same-day entry consumes a position of
the walk, so the result can differ from the result on the deduplicated
list: `[today, today, today-1]` yields 1 while `[today, today-1]` yields 2. -/
theorem C4_no_defensive_dedup (t : ℤ) :
    get_current_streak [t, t, t - 1] t = 1
    ∧ get_current_streak [t, t - 1] t = 2 := by
  constructor
  · rw [get_current_streak_eq_walk]
    simp only [streakWalk]
    rw [if_pos (by ring : t = t - (0 : ℤ)),
      if_neg (by omega : ¬ (t = t - (0 + 1 : ℤ)))]
  · rw [get_current_streak_eq_walk]
    simp only [streakWalk]
    rw [if_pos (by ring : t = t - (0 : ℤ)),
      if_pos (by ring : t - 1 = t - (0 + 1 : ℤ))]

/-! ## Duration aggregator: lemmas and claims C1, C5, C8, C9, C10 -/

theorem processUrls_videoCount (lookup : Lookup) (urls : List (List Char)) :
    (processUrls lookup urls).videoCount
      = (urls.filter fun u => pyStrip u ≠ []).length := by
  induction urls with
  | nil => rfl
  | cons url rest ih =>
    rw [List.filter_cons]
    by_cases hs : pyStrip url = []
    · rw [if_neg (by simp [hs])]
      simp only [processUrls, if_pos hs]
      exact ih
    · rw [if_pos (by simp [hs])]
      simp only [processUrls, if_neg hs]
      by_cases hd : get_video_duration lookup (pyStrip url) > 0
      · rw [if_pos hd]
        simp [ih]
      · rw [if_neg hd]
        simp [ih]

theorem processUrls_totalSeconds (lookup : Lookup) (urls : List (List Char)) :
    (processUrls lookup urls).totalSeconds
      = ((urls.filter fun u => pyStrip u ≠ []).map fun u =>
          if 0 < get_video_duration lookup (pyStrip u) then
            get_video_duration lookup (pyStrip u) else 0).sum := by
  induction urls with
  | nil => rfl
  | cons url rest ih =>
    rw [List.filter_cons]
    by_cases hs : pyStrip url = []
    · rw [if_neg (by simp [hs])]
      simp only [processUrls, if_pos hs]
      exact ih
    · rw [if_pos (by simp [hs])]
      simp only [processUrls, if_neg hs]
      rw [List.map_cons, List.sum_cons]
      by_cases hd : get_video_duration lookup (pyStrip url) > 0
      · rw [if_pos hd, if_pos hd]
        simp [ih]
      · rw [if_neg hd, if_neg hd]
        simp [ih]

theorem processUrls_successfulCount (lookup : Lookup) (urls : List (List Char)) :
    (processUrls lookup urls).successfulCount
      = ((urls.filter fun u => pyStrip u ≠ []).filter fun u =>
          0 < get_video_duration lookup (pyStrip u)).length := by
  induction urls with
  | nil => rfl
  | cons url rest ih =>
    rw [List.filter_cons]
    by_cases hs : pyStrip url = []
    · rw [if_neg (by simp [hs])]
      simp only [processUrls, if_pos hs]
      exact ih
    · rw [if_pos (by simp [hs])]
      simp only [processUrls, if_neg hs]
      rw [List.filter_cons]
      by_cases hd : get_video_duration lookup (pyStrip url) > 0
      · rw [if_pos hd, if_pos (by simp [hd])]
        simp [ih]
      · rw [if_neg hd, if_neg (by simp [hd])]
        simp [ih]

theorem length_filter_pos_add_eq (l : List (List Char)) (f : List Char → Nat) :
    (l.filter fun u => 0 < f u).length + (l.filter fun u => f u = 0).length
      = l.length := by
  induction l with
  | nil => rfl
  | cons x xs ih =>
    simp only [List.filter_cons]
    by_cases hx : 0 < f x
    · rw [if_pos (by simp [hx]), if_neg (by simp; omega)]
      simp only [List.length_cons]
      omega
    · rw [if_neg (by simp [hx]), if_pos (by simp; omega)]
      simp only [List.length_cons]
      omega

/-- C1 fails on the code at a concrete input: the collaborator succeeds on
the single item (returning duration 0, an integer ≥ 0), yet the success
counter stays at 0 (the claim predicts 1) and the item lands in the
failure tally (`video_count - successful_count = 1`); the code can only
credit strictly positive durations (`if duration > 0`). -/
theorem C1_counterexample :
    (fun _ : List Char => (some 0 : Option Nat)) (pyStrip (['u'])) = some 0
    ∧ (processUrls (fun _ => some 0) [(['u'])]).successfulCount = 0
    ∧ (processUrls (fun _ => some 0) [(['u'])]).videoCount
        - (processUrls (fun _ => some 0) [(['u'])]).successfulCount = 1 := by
  refine ⟨rfl, by decide, by decide⟩

/-- C1 (amended): per-item accounting of the batch loop: an item (with
non-empty stripped reference) is credited — its duration added to the total
and the success counter incremented — exactly when the lookup yields a
strictly positive duration; when the lookup fails, or succeeds with
duration 0, nothing is added and the item counts toward the failure tally
(`video_count - successful_count`); processing always continues with the
next item. -/
theorem C1_item_accounting (lookup : Lookup) (urls : List (List Char)) :
    (processUrls lookup urls).videoCount
      = (urls.filter fun u => pyStrip u ≠ []).length
    ∧ (processUrls lookup urls).totalSeconds
      = ((urls.filter fun u => pyStrip u ≠ []).map fun u =>
          if 0 < get_video_duration lookup (pyStrip u) then
            get_video_duration lookup (pyStrip u) else 0).sum
    ∧ (processUrls lookup urls).successfulCount
      = ((urls.filter fun u => pyStrip u ≠ []).filter fun u =>
          0 < get_video_duration lookup (pyStrip u)).length
    ∧ (processUrls lookup urls).videoCount
        - (processUrls lookup urls).successfulCount
      = ((urls.filter fun u => pyStrip u ≠ []).filter fun u =>
          get_video_duration lookup (pyStrip u) = 0).length
    ∧ (∀ u, lookup (pyStrip u) = none → get_video_duration lookup (pyStrip u) = 0) := by
  have h1 := processUrls_videoCount lookup urls
  have h2 := processUrls_totalSeconds lookup urls
  have h3 := processUrls_successfulCount lookup urls
  refine ⟨h1, h2, h3, ?_, ?_⟩
  · have := length_filter_pos_add_eq (urls.filter fun u => pyStrip u ≠ [])
      (fun u => get_video_duration lookup (pyStrip u))
    omega
  · intro u hu
    simp [get_video_duration, hu]

/-- Witness for the inner hypothesis of C1's amended theorem: a failing
lookup yields duration 0. -/
theorem C1_item_accounting_witness :
    get_video_duration (fun _ => none) (pyStrip (['x'])) = 0 := by
  have h := C1_item_accounting (fun _ => none) [(['x'])]
  exact h.2.2.2.2 (['x']) rfl

/-- C5: on a three-item batch whose second lookup fails and whose first and
third succeed with positive durations d1 and d3, the whole batch completes
with total seconds d1 + d3, attempted count 3, success count 2, failure
count 1, and the returned hours are (d1 + d3) / 3600. -/
theorem C5_three_items_one_failure (lookup : Lookup) (u1 u2 u3 : List Char)
    (d1 d3 : Nat)
    (hs1 : pyStrip u1 ≠ []) (hs2 : pyStrip u2 ≠ []) (hs3 : pyStrip u3 ≠ [])
    (hl1 : lookup (pyStrip u1) = some d1) (hd1 : 0 < d1)
    (hl2 : lookup (pyStrip u2) = none)
    (hl3 : lookup (pyStrip u3) = some d3) (hd3 : 0 < d3) :
    processUrls lookup [u1, u2, u3] = ⟨d1 + d3, 3, 2⟩
    ∧ (processUrls lookup [u1, u2, u3]).videoCount
        - (processUrls lookup [u1, u2, u3]).successfulCount = 1
    ∧ calculate_total_duration (.ok [some u1, some u2, some u3]) lookup
        = ⟨((d1 + d3 : Nat) : ℚ) / 3600, false, false, ⟨d1 + d3, 3, 2⟩⟩ := by
  have hu1 : u1 ≠ [] := fun h => hs1 (by simp [h, pyStrip])
  have hu2 : u2 ≠ [] := fun h => hs2 (by simp [h, pyStrip])
  have hu3 : u3 ≠ [] := fun h => hs3 (by simp [h, pyStrip])
  have hg1 : get_video_duration lookup (pyStrip u1) = d1 := by
    simp [get_video_duration, hl1]
  have hg2 : get_video_duration lookup (pyStrip u2) = 0 := by
    simp [get_video_duration, hl2]
  have hg3 : get_video_duration lookup (pyStrip u3) = d3 := by
    simp [get_video_duration, hl3]
  have hp : processUrls lookup [u1, u2, u3] = ⟨d1 + d3, 3, 2⟩ := by
    simp only [processUrls, if_neg hs1, if_neg hs2, if_neg hs3, hg1, hg2, hg3]
    rw [if_pos hd1, if_neg (by omega), if_pos hd3]
    simp
  refine ⟨hp, by rw [hp]; rfl, ?_⟩
  have hurls : csvUrls [some u1, some u2, some u3] = [u1, u2, u3] := by
    simp [csvUrls, hu1, hu2, hu3]
  simp only [calculate_total_duration, hurls]
  rw [if_neg (by simp), hp]

/-- Witness for C5 at a concrete batch. -/
theorem C5_three_items_one_failure_witness :
    processUrls
        (fun u => if u = (['a']) then some 5 else if u = (['c']) then some 7 else none)
        [(['a']), (['b']), (['c'])] = ⟨5 + 7, 3, 2⟩
    ∧ (processUrls
        (fun u => if u = (['a']) then some 5 else if u = (['c']) then some 7 else none)
        [(['a']), (['b']), (['c'])]).videoCount
        - (processUrls
        (fun u => if u = (['a']) then some 5 else if u = (['c']) then some 7 else none)
        [(['a']), (['b']), (['c'])]).successfulCount = 1
    ∧ calculate_total_duration (.ok [some (['a']), some (['b']), some (['c'])])
        (fun u => if u = (['a']) then some 5 else if u = (['c']) then some 7 else none)
        = ⟨((5 + 7 : Nat) : ℚ) / 3600, false, false, ⟨5 + 7, 3, 2⟩⟩ :=
  C5_three_items_one_failure
    (fun u => if u = (['a']) then some 5 else if u = (['c']) then some 7 else none)
    (['a']) (['b']) (['c']) 5 7
    (by decide) (by decide) (by decide) (by decide) (by decide)
    (by decide) (by decide) (by decide)

/-- C8: an empty input list is not an error: total seconds 0, total hours
0.0, the not-found message is reported, and the call completes normally. -/
theorem C8_empty_batch (lookup : Lookup) :
    calculate_total_duration (.ok []) lookup
      = { hours := 0, noUrlsMsg := true, errMsg := false, totals := ⟨0, 0, 0⟩ } := rfl

/-- C9 fails on the code at a concrete input: a row whose URL field is
present and non-empty (a single space) passes the pre-aggregation filter,
but is skipped by the in-loop `if not url.strip(): continue`, so the
attempted count is 0 while the rows with a present, non-empty URL number 1. -/
theorem C9_counterexample :
    (calculate_total_duration (.ok [some ([' '])]) (fun _ => none)).totals.videoCount = 0
    ∧ (csvUrls [some ([' '])]).length = 1 := by
  refine ⟨by decide, by decide⟩

/-- C9 (amended): rows lacking the URL field or with an empty value are
filtered out before aggregation and never counted; the attempted count
equals the number of rows whose URL field is present, non-empty, and still
non-empty after stripping whitespace (whitespace-only values pass the
filter but are skipped by the loop before being counted). -/
theorem C9_attempted_count (rows : List (Option (List Char))) (lookup : Lookup) :
    (calculate_total_duration (.ok rows) lookup).totals.videoCount
      = ((csvUrls rows).filter fun u => pyStrip u ≠ []).length
    ∧ csvUrls (none :: rows) = csvUrls rows
    ∧ csvUrls (some [] :: rows) = csvUrls rows := by
  refine ⟨?_, by simp [csvUrls], by simp [csvUrls]⟩
  simp only [calculate_total_duration]
  by_cases hu : csvUrls rows = []
  · rw [if_pos hu, hu]
    rfl
  · rw [if_neg hu]
    exact processUrls_videoCount lookup (csvUrls rows)

/-- C10: when reading the CSV file fails (missing file or any other read
error), `calculate_total_duration` catches the exception, prints a message,
and returns 0 total hours, completing normally. -/
theorem C10_read_error_returns_zero (e : CsvError) (lookup : Lookup) :
    calculate_total_duration (.error e) lookup
      = { hours := 0, noUrlsMsg := false, errMsg := true, totals := ⟨0, 0, 0⟩ } := rfl

/-! ## Video reference parser: lemmas and claims C6, C7 -/

theorem startsWith_append (p t : List Char) : startsWith p (p ++ t) = true := by
  induction p with
  | nil => rfl
  | cons a as ih => simp [startsWith, ih]

theorem startsWith_exists {p s : List Char} (h : startsWith p s = true) :
    ∃ t, s = p ++ t := by
  induction p generalizing s with
  | nil => exact ⟨s, rfl⟩
  | cons a as ih =>
    cases s with
    | nil => exact absurd h (by simp [startsWith])
    | cons c cs =>
      simp only [startsWith, Bool.and_eq_true, decide_eq_true_eq] at h
      obtain ⟨t, ht⟩ := ih h.2
      exact ⟨t, by rw [ht, h.1]; rfl⟩

theorem strContains_iff (s pat : List Char) :
    strContains s pat = true ↔ ∃ a b, s = a ++ pat ++ b := by
  induction s with
  | nil =>
    simp only [strContains]
    constructor
    · intro h
      obtain ⟨t, ht⟩ := startsWith_exists h
      exact ⟨[], t, ht⟩
    · rintro ⟨a, b, h⟩
      have hp : pat = [] := by
        cases a <;> cases pat <;> simp_all
      subst hp
      rfl
  | cons c cs ih =>
    simp only [strContains, Bool.or_eq_true]
    constructor
    · rintro (h | h)
      · obtain ⟨t, ht⟩ := startsWith_exists h
        exact ⟨[], t, ht⟩
      · obtain ⟨a, b, hab⟩ := ih.mp h
        exact ⟨c :: a, b, by rw [hab]; rfl⟩
    · rintro ⟨a, b, hab⟩
      cases a with
      | nil =>
        left
        simp only [List.nil_append] at hab
        rw [hab]
        exact startsWith_append pat b
      | cons a₀ as =>
        right
        refine ih.mpr ⟨as, b, ?_⟩
        have := hab
        simp only [List.cons_append] at this
        exact (List.cons.injEq _ _ _ _).mp this |>.2

theorem strContains_explicit (x pat y : List Char) :
    strContains (x ++ pat ++ y) pat = true :=
  (strContains_iff _ _).mpr ⟨x, y, rfl⟩

theorem breakOn_of_not_contains {sep s : List Char} (hsep : sep ≠ [])
    (h : strContains s sep = false) : breakOn sep s = (s, none) := by
  induction s with
  | nil =>
    simp only [breakOn, if_neg hsep]
  | cons c cs ih =>
    simp only [strContains, Bool.or_eq_false_iff] at h
    simp only [breakOn, h.1, Bool.false_eq_true, if_false]
    rw [ih h.2]

theorem breakOn_rest_length {sep : List Char} (hsep : sep ≠ []) :
    ∀ s pre rest : List Char, breakOn sep s = (pre, some rest) →
      rest.length < s.length := by
  intro s
  induction s with
  | nil =>
    intro pre rest h
    simp only [breakOn, if_neg hsep, Prod.mk.injEq] at h
    exact absurd h.2 (by simp)
  | cons c cs ih =>
    intro pre rest h
    simp only [breakOn] at h
    by_cases hs : startsWith sep (c :: cs) = true
    · rw [if_pos hs] at h
      have hr : rest = (c :: cs).drop sep.length := by
        have := (Prod.mk.injEq _ _ _ _).mp h
        exact ((Option.some.injEq _ _).mp this.2).symm
      subst hr
      obtain ⟨sc, ss⟩ := sep
      · exact absurd rfl hsep
      · simp only [List.drop_succ_cons, List.length_cons]
        exact Nat.lt_succ_of_le (by simpa using List.length_drop _ cs ▸ Nat.sub_le _ _)
    · rw [if_neg hs] at h
      have := (Prod.mk.injEq _ _ _ _).mp h
      exact Nat.lt_succ_of_lt (ih (breakOn sep cs).1 rest
        (by rw [Prod.mk.injEq]; exact ⟨rfl, this.2⟩))

theorem pySplitF_fuel {sep : List Char} (hsep : sep ≠ []) :
    ∀ fuel1 fuel2 s, s.length ≤ fuel1 → s.length ≤ fuel2 →
      pySplitF sep fuel1 s = pySplitF sep fuel2 s := by
  intro fuel1
  induction fuel1 with
  | zero =>
    intro fuel2 s h1 h2
    have hs : s = [] := List.length_eq_zero.mp (Nat.le_zero.mp h1)
    subst hs
    cases fuel2 with
    | zero => rfl
    | succ g =>
      simp only [pySplitF, breakOn, if_neg hsep]
  | succ f ih =>
    intro fuel2 s h1 h2
    cases fuel2 with
    | zero =>
      have hs : s = [] := List.length_eq_zero.mp (Nat.le_zero.mp h2)
      subst hs
      simp only [pySplitF, breakOn, if_neg hsep]
    | succ g =>
      rcases hb : breakOn sep s with ⟨pre, rest?⟩
      cases rest? with
      | none => simp only [pySplitF, hb]
      | some rest =>
        have hlt := breakOn_rest_length hsep s pre rest hb
        simp only [pySplitF, hb]
        rw [ih g rest (by omega) (by omega)]

theorem pySplit_unfold {sep : List Char} (hsep : sep ≠ []) (s : List Char) :
    pySplit sep s = (match breakOn sep s with
      | (pre, none) => [pre]
      | (pre, some rest) => pre :: pySplit sep rest) := by
  simp only [pySplit, if_neg hsep]
  rcases hb : breakOn sep s with ⟨pre, rest?⟩
  cases rest? with
  | none =>
    cases hl : s.length with
    | zero =>
      have hs : s = [] := List.length_eq_zero.mp hl
      subst hs
      simp only [pySplitF]
      simp only [breakOn, if_neg hsep, Prod.mk.injEq] at hb
      rw [hb.1]
    | succ n =>
      simp only [pySplitF, hb]
  | some rest =>
    have hlt := breakOn_rest_length hsep s pre rest hb
    cases hl : s.length with
    | zero => omega
    | succ n =>
      simp only [pySplitF, hb]
      rw [pySplitF_fuel hsep n rest.length rest (by omega) (Nat.le_refl _)]

theorem pySplit_of_not_contains {sep s : List Char} (hsep : sep ≠ [])
    (h : strContains s sep = false) : pySplit sep s = [s] := by
  rw [pySplit_unfold hsep, breakOn_of_not_contains hsep h]

theorem pySplit_ne_nil (sep s : List Char) : pySplit sep s ≠ [] := by
  by_cases hsep : sep = []
  · simp [pySplit, hsep]
  · rw [pySplit_unfold hsep]
    rcases hb : breakOn sep s with ⟨pre, rest?⟩
    cases rest? <;> simp

theorem getLastD_irrel {α : Type} (l : List α) (d d' : α) (h : l ≠ []) :
    l.getLastD d = l.getLastD d' := by
  cases l with
  | nil => exact absurd rfl h
  | cons a as => rfl

theorem breakOn_around (sep y : List Char) (hsep : sep ≠ []) (hnb : NoBorder sep) :
    ∀ x : List Char, ∃ pre rest, breakOn sep (x ++ sep ++ y) = (pre, some rest)
      ∧ (rest = y ∨ ∃ x₂, rest = x₂ ++ sep ++ y ∧ x₂.length < x.length) := by
  intro x
  induction x with
  | nil =>
    rcases hse : sep with _ | ⟨a, as⟩
    · exact absurd hse hsep
    · refine ⟨[], y, ?_, Or.inl rfl⟩
      rw [← hse]
      have hform : ([] : List Char) ++ sep ++ y = a :: (as ++ y) := by rw [hse]; rfl
      rw [hform]
      have hsw : startsWith sep (a :: (as ++ y)) = true := by
        have : a :: (as ++ y) = sep ++ y := by rw [hse]; rfl
        rw [this]
        exact startsWith_append sep y
      simp only [breakOn, hsw, if_true]
      congr 1
      have : a :: (as ++ y) = sep ++ y := by rw [hse]; rfl
      rw [this, List.drop_left]
  | cons c x' ih =>
    have hform : (c :: x') ++ sep ++ y = c :: (x' ++ sep ++ y) := rfl
    rw [hform]
    by_cases hsw : startsWith sep (c :: (x' ++ sep ++ y)) = true
    · -- the separator matches here: either inside `c :: x'` or it would
      -- need a border
      obtain ⟨t, ht⟩ := startsWith_exists hsw
      by_cases hlen : sep.length ≤ (c :: x').length
      · refine ⟨[], (c :: (x' ++ sep ++ y)).drop sep.length, ?_, Or.inr ?_⟩
        · simp only [breakOn, hsw, if_true]
        · refine ⟨(c :: x').drop sep.length, ?_, ?_⟩
          · have : c :: (x' ++ sep ++ y) = (c :: x') ++ (sep ++ y) := by simp
            rw [this, List.drop_append_of_le_length hlen, List.append_assoc]
          · have := List.length_drop sep.length (c :: x')
            have hpos : 0 < sep.length := List.length_pos.mpr hsep
            simp only [List.length_cons] at *
            omega
      · -- overlap: sep = (c :: x') ++ (a prefix of itself) — a border
        exfalso
        push_neg at hlen
        set u := c :: x' with hu
        have hus : u.length < sep.length := hlen
        have heq : sep ++ t = u ++ (sep ++ y) := by
          rw [← ht]
          simp [hu]
        have h1 : sep.take u.length = u := by
          have := congrArg (List.take u.length) heq
          rwa [List.take_append_of_le_length (Nat.le_of_lt hus), List.take_left] at this
        have h2 : sep.drop u.length ++ t = sep ++ y := by
          have := congrArg (List.drop u.length) heq
          rwa [List.drop_append_of_le_length (Nat.le_of_lt hus), List.drop_left] at this
        have h3 : sep.drop u.length = sep.take (sep.length - u.length) := by
          have := congrArg (List.take (sep.length - u.length)) h2
          rwa [List.take_left' (by rw [List.length_drop]),
            List.take_append_of_le_length (Nat.sub_le _ _)] at this
        have hk1 : 0 < sep.length - u.length := by omega
        have hk2 : sep.length - u.length < sep.length := by
          have : 0 < u.length := by simp [hu]
          omega
        exact hnb (sep.length - u.length) hk2 hk1
          (by rw [h3.symm]
              congr 1
              omega)
    · obtain ⟨pre', rest', hb, hrest⟩ := ih
      refine ⟨c :: pre', rest', ?_, ?_⟩
      · simp only [breakOn, hsw, Bool.false_eq_true, if_false, hb]
      · rcases hrest with h | ⟨x₂, hx₂, hl⟩
        · exact Or.inl h
        · exact Or.inr ⟨x₂, hx₂, by simp only [List.length_cons]; omega⟩

theorem pySplit_getLastD (sep y : List Char) (hsep : sep ≠ []) (hnb : NoBorder sep)
    (hy : strContains y sep = false) :
    ∀ x : List Char, (pySplit sep (x ++ sep ++ y)).getLastD [] = y := by
  have main : ∀ n (x : List Char), x.length ≤ n →
      (pySplit sep (x ++ sep ++ y)).getLastD [] = y := by
    intro n
    induction n with
    | zero =>
      intro x hx
      obtain ⟨pre, rest, hb, hrest⟩ := breakOn_around sep y hsep hnb x
      have hresty : rest = y := by
        rcases hrest with h | ⟨x₂, _, hl⟩
        · exact h
        · omega
      subst hresty
      rw [pySplit_unfold hsep, hb]
      simp only [List.getLastD_cons]
      rw [pySplit_of_not_contains hsep hy]
      rfl
    | succ n ih =>
      intro x hx
      obtain ⟨pre, rest, hb, hrest⟩ := breakOn_around sep y hsep hnb x
      rw [pySplit_unfold hsep, hb]
      simp only [List.getLastD_cons]
      rcases hrest with h | ⟨x₂, hx₂, hl⟩
      · subst h
        rw [pySplit_of_not_contains hsep hy]
        rfl
      · subst hx₂
        rw [getLastD_irrel _ _ [] (pySplit_ne_nil _ _)]
        exact ih x₂ (by omega)
  exact fun x => main x.length x (Nat.le_refl _)

theorem pySplit_headD (sep s : List Char) (hsep : sep ≠ []) :
    (pySplit sep s).headD [] = (breakOn sep s).1 := by
  rw [pySplit_unfold hsep]
  rcases hb : breakOn sep s with ⟨pre, rest?⟩
  cases rest? <;> rfl

theorem breakOn_single {c₀ : Char} {v : List Char} (y : List Char)
    (hv : c₀ ∉ v) : breakOn [c₀] (v ++ c₀ :: y) = (v, some y) := by
  induction v with
  | nil =>
    have hsw : startsWith [c₀] (c₀ :: y) = true := by simp [startsWith]
    simp only [List.nil_append, breakOn, hsw, if_true]
    rfl
  | cons a v' ih =>
    have ha : a ≠ c₀ := fun h => hv (by simp [h])
    have hsw : startsWith [c₀] (a :: (v' ++ c₀ :: y)) = false := by
      simp [startsWith, Ne.symm ha]
    have hform : (a :: v') ++ c₀ :: y = a :: (v' ++ c₀ :: y) := rfl
    rw [hform]
    simp only [breakOn, hsw, Bool.false_eq_true, if_false]
    rw [ih (fun h => hv (by simp [h]))]

/-- C6: the parser classifies and extracts as specified: a short-form
reference yields the text following `youtu.be/` up to (excluding) the
first `?`; a long-form reference yields the text following `v=` up to
(excluding) the first `&`; concretely the three example inputs map to
`abc123`, `abc123`, and unrecognized. -/
theorem C6_parser_extraction :
    (∀ pre vid rest : List Char,
        vid ≠ [] →
        strContains (vid ++ '?' :: rest) ("youtu.be/".toList) = false →
        ('?' : Char) ∉ vid →
        extract_video_id (pre ++ ("youtu.be/".toList) ++ (vid ++ '?' :: rest))
          = some vid)
    ∧ (∀ pre vid rest : List Char,
        vid ≠ [] →
        strContains (pre ++ ("v=".toList) ++ (vid ++ '&' :: rest))
          ("youtu.be/".toList) = false →
        strContains (pre ++ ("v=".toList) ++ (vid ++ '&' :: rest))
          ("youtube.com/watch".toList) = true →
        strContains (vid ++ '&' :: rest) ("v=".toList) = false →
        ('&' : Char) ∉ vid →
        extract_video_id (pre ++ ("v=".toList) ++ (vid ++ '&' :: rest)) = some vid)
    ∧ extract_video_id ("https://youtu.be/abc123?si=xyz".toList)
        = some ("abc123".toList)
    ∧ extract_video_id ("https://www.youtube.com/watch?v=abc123&t=5".toList)
        = some ("abc123".toList)
    ∧ extract_video_id ("https://example.com/x".toList) = none := by
  refine ⟨?_, ?_, by decide, by decide, by decide⟩
  · intro pre vid rest hvid hnc hq
    have hcont : strContains (pre ++ ("youtu.be/".toList) ++ (vid ++ '?' :: rest))
        ("youtu.be/".toList) = true := strContains_explicit _ _ _
    have hlast : (pySplit ("youtu.be/".toList)
        (pre ++ ("youtu.be/".toList) ++ (vid ++ '?' :: rest))).getLastD []
        = vid ++ '?' :: rest :=
      pySplit_getLastD _ _ (by decide) (by decide) hnc pre
    have hhead : (pySplit ("?".toList) (vid ++ '?' :: rest)).headD [] = vid := by
      rw [pySplit_headD _ _ (by decide)]
      have h1 : ("?".toList) = ['?'] := rfl
      rw [h1, breakOn_single rest hq]
    simp only [extract_video_id, hcont, if_true, hlast, hhead, noneIfEmpty]
    rw [if_neg hvid]
  · intro pre vid rest hvid hnyb hwatch hnv hamp
    have hcont : strContains (pre ++ ("v=".toList) ++ (vid ++ '&' :: rest))
        ("v=".toList) = true := strContains_explicit _ _ _
    have hlast : (pySplit ("v=".toList)
        (pre ++ ("v=".toList) ++ (vid ++ '&' :: rest))).getLastD []
        = vid ++ '&' :: rest :=
      pySplit_getLastD _ _ (by decide) (by decide) hnv pre
    have hhead : (pySplit ("&".toList) (vid ++ '&' :: rest)).headD [] = vid := by
      rw [pySplit_headD _ _ (by decide)]
      have h1 : ("&".toList) = ['&'] := rfl
      rw [h1, breakOn_single rest hamp]
    simp only [extract_video_id, hnyb, Bool.false_eq_true, if_false, hwatch,
      if_true, hcont, hlast, hhead, noneIfEmpty]
    rw [if_neg hvid]

/-- Witness for C6's two general conjuncts at concrete inputs. -/
theorem C6_parser_extraction_witness :
    extract_video_id (("https://".toList) ++ ("youtu.be/".toList)
        ++ (("zz".toList) ++ '?' :: ("t=1".toList))) = some ("zz".toList)
    ∧ extract_video_id (("https://www.youtube.com/watch?".toList)
        ++ ("v=".toList) ++ (("id7".toList) ++ '&' :: ("x".toList)))
        = some ("id7".toList) :=
  ⟨C6_parser_extraction.1 ("https://".toList) ("zz".toList) ("t=1".toList)
      (by decide) (by decide) (by decide),
    C6_parser_extraction.2.1 ("https://www.youtube.com/watch?".toList)
      ("id7".toList) ("x".toList)
      (by decide) (by decide) (by decide) (by decide) (by decide)⟩

/-- C7: the parser is total and never returns an empty identifier: every
input is classified; when neither recognized shape is present, or a watch
URL lacks `v=`, the result is unrecognized (`none`); any extracted
identifier is non-empty. -/
theorem C7_parser_total_never_empty :
    (∀ url : List Char, extract_video_id url ≠ some [])
    ∧ (∀ url : List Char,
        strContains url ("youtu.be/".toList) = false →
        strContains url ("youtube.com/watch".toList) = true →
        strContains url ("v=".toList) = false →
        extract_video_id url = none)
    ∧ (∀ url : List Char,
        strContains url ("youtu.be/".toList) = false →
        strContains url ("youtube.com/watch".toList) = false →
        extract_video_id url = none)
    ∧ (∀ url : List Char, extract_video_id url = none
        ∨ ∃ v, extract_video_id url = some v ∧ v ≠ []) := by
  have hne : ∀ o : Option (List Char), noneIfEmpty o = none
      ∨ ∃ v, noneIfEmpty o = some v ∧ v ≠ [] := by
    intro o
    cases o with
    | none => exact Or.inl rfl
    | some v =>
      by_cases hv : v = []
      · exact Or.inl (by simp only [noneIfEmpty]; rw [if_pos hv])
      · exact Or.inr ⟨v, by simp only [noneIfEmpty]; rw [if_neg hv], hv⟩
  have key : ∀ url : List Char, extract_video_id url = none
      ∨ ∃ v, extract_video_id url = some v ∧ v ≠ [] := by
    intro url
    unfold extract_video_id
    exact hne _
  refine ⟨?_, ?_, ?_, key⟩
  · intro url h
    rcases key url with hn | ⟨v, hv, hne⟩
    · rw [hn] at h; exact absurd h (by simp)
    · rw [hv] at h
      exact hne ((Option.some.injEq _ _).mp h)
  · intro url h1 h2 h3
    unfold extract_video_id
    rw [if_neg (by rw [h1]; exact Bool.false_ne_true), if_pos h2, if_neg (by rw [h3]; exact Bool.false_ne_true)]
    rfl
  · intro url h1 h2
    unfold extract_video_id
    rw [if_neg (by rw [h1]; exact Bool.false_ne_true), if_neg (by rw [h2]; exact Bool.false_ne_true)]
    rfl

/-- Witness for C7's conditional conjuncts at concrete inputs. -/
theorem C7_parser_total_never_empty_witness :
    extract_video_id ("https://www.youtube.com/watch?x=1".toList) = none
    ∧ extract_video_id ("https://example.com/x".toList) = none :=
  ⟨C7_parser_total_never_empty.2.1 ("https://www.youtube.com/watch?x=1".toList)
      (by decide) (by decide) (by decide),
    C7_parser_total_never_empty.2.2.1 ("https://example.com/x".toList)
      (by decide) (by decide)⟩

/-! ## Badge renderer: characters, digits, and pattern components (C2) -/

theorem natDigits_spec (n : Nat) :
    natDigits n ≠ [] ∧ ∀ c ∈ natDigits n, isDig c = true := by
  induction n using Nat.strong_induction_on with
  | _ n ih =>
    rw [natDigits]
    by_cases h : n < 10
    · rw [dif_pos h]
      refine ⟨by simp, ?_⟩
      intro c hc
      simp only [List.mem_singleton] at hc
      subst hc
      exact (by decide : ∀ m, m < 10 → isDig (Char.ofNat (48 + m)) = true) n h
    · rw [dif_neg h]
      refine ⟨by simp, ?_⟩
      intro c hc
      rw [List.mem_append] at hc
      rcases hc with hc | hc
      · exact (ih (n / 10) (Nat.div_lt_self (by omega) (by omega))).2 c hc
      · simp only [List.mem_singleton] at hc
        subst hc
        have hm : n % 10 < 10 := Nat.mod_lt _ (by omega)
        exact (by decide : ∀ m, m < 10 → isDig (Char.ofNat (48 + m)) = true) _ hm

theorem isDig_ne {c d : Char} (hc : isDig c = true) (hd : isDig d = false) :
    c ≠ d := by
  rintro rfl
  rw [hc] at hd
  exact absurd hd (by simp)

theorem stripP_eq_some_iff {p s r : List Char} :
    stripP p s = some r ↔ s = p ++ r := by
  induction p generalizing s with
  | nil =>
    constructor
    · intro h
      have hs : s = r := (Option.some.injEq _ _).mp h
      rw [hs, List.nil_append]
    · intro h
      rw [List.nil_append] at h
      rw [h]
      rfl
  | cons q qs ih =>
    cases s with
    | nil =>
      simp only [stripP]
      constructor
      · intro h; exact absurd h (by simp)
      · intro h; exact absurd h (by simp)
    | cons c cs =>
      simp only [stripP, List.cons_append, List.cons.injEq]
      by_cases hqc : q = c
      · rw [if_pos hqc]
        rw [ih]
        constructor
        · intro h; exact ⟨hqc.symm, h⟩
        · intro h; exact h.2
      · rw [if_neg hqc]
        constructor
        · intro h; exact absurd h (by simp)
        · intro h; exact absurd h.1 (fun he => hqc he.symm)

theorem stripP_append (p r : List Char) : stripP p (p ++ r) = some r :=
  stripP_eq_some_iff.mpr rfl

theorem stripP_head_ne {q c : Char} {qs x : List Char} (h : q ≠ c) :
    stripP (q :: qs) (c :: x) = none := by
  simp only [stripP, if_neg h]

theorem stripP_nil_right {q : Char} {qs : List Char} :
    stripP (q :: qs) [] = none := rfl

theorem dropWhile_head_not (p : Char → Bool) (l : List Char) :
    ∀ w, (l.dropWhile p).head? = some w → p w = false := by
  induction l with
  | nil => intro w h; exact absurd h (by simp)
  | cons c cs ih =>
    intro w h
    by_cases hc : p c = true
    · rw [List.dropWhile_cons_of_pos hc] at h
      exact ih w h
    · rw [List.dropWhile_cons_of_neg hc] at h
      simp only [List.head?_cons, Option.some.injEq] at h
      subst h
      exact Bool.not_eq_true _ |>.mp hc

theorem digits1_elim {s r : List Char} (h : digits1 s = some r) :
    ∃ ds, s = ds ++ r ∧ ds ≠ [] ∧ (∀ c ∈ ds, isDig c = true)
      ∧ isDig (r.headD '-') = false := by
  simp only [digits1] at h
  rcases ht : s.takeWhile isDig with _ | ⟨d, ds'⟩
  · rw [ht] at h
    exact absurd h (by simp)
  · rw [ht] at h
    have hr : r = s.dropWhile isDig := ((Option.some.injEq _ _).mp h).symm
    refine ⟨d :: ds', ?_, by simp, ?_, ?_⟩
    · rw [hr, ← ht]
      exact (List.takeWhile_append_dropWhile isDig s).symm
    · intro c hc
      rw [← ht] at hc
      exact List.mem_takeWhile_imp hc
    · subst hr
      rcases hrr : s.dropWhile isDig with _ | ⟨w, ws⟩
      · decide
      · simp only [List.headD_cons]
        exact dropWhile_head_not isDig s w (by rw [hrr]; rfl)

theorem takeWhile_digits_append {c₀ : Char} (v : List Char) (hc : isDig c₀ = false) :
    ∀ ds : List Char, (∀ c ∈ ds, isDig c = true) →
      (ds ++ c₀ :: v).takeWhile isDig = ds ∧ (ds ++ c₀ :: v).dropWhile isDig = c₀ :: v := by
  intro ds
  induction ds with
  | nil =>
    intro _
    have hcn : ¬ (isDig c₀ = true) := by rw [hc]; exact Bool.false_ne_true
    constructor
    · rw [List.nil_append, List.takeWhile_cons_of_neg hcn]
    · rw [List.nil_append, List.dropWhile_cons_of_neg hcn]
  | cons d ds' ih =>
    intro hall
    obtain ⟨ih1, ih2⟩ := ih (fun c hcc => hall c (by simp [hcc]))
    constructor
    · rw [List.cons_append, List.takeWhile_cons_of_pos (hall d (by simp)), ih1]
    · rw [List.cons_append, List.dropWhile_cons_of_pos (hall d (by simp)), ih2]

theorem digits1_intro {ds : List Char} (c₀ : Char) (v : List Char)
    (hne : ds ≠ []) (hall : ∀ c ∈ ds, isDig c = true) (hc : isDig c₀ = false) :
    digits1 (ds ++ c₀ :: v) = some (c₀ :: v) := by
  obtain ⟨ht, hd⟩ := takeWhile_digits_append v hc ds hall
  simp only [digits1, ht, hd]
  cases ds with
  | nil => exact absurd rfl hne
  | cons d ds' => rfl

/-! A character the pattern can never consume splits the matcher: matching
on `a ++ c₀ :: v` is matching on `a`, with the rest carried along. -/

theorem stripP_stop {c₀ : Char} {p : List Char} (hc : c₀ ∉ p) (a v : List Char) :
    stripP p (a ++ c₀ :: v) = (stripP p a).map (· ++ c₀ :: v) := by
  induction p generalizing a with
  | nil => rfl
  | cons q qs ih =>
    cases a with
    | nil =>
      have hq : q ≠ c₀ := fun h => hc (by simp [h])
      rw [List.nil_append, stripP_head_ne hq]
      rfl
    | cons b a' =>
      rw [List.cons_append]
      simp only [stripP]
      by_cases hqb : q = b
      · rw [if_pos hqb, if_pos hqb]
        exact ih (fun h => hc (by simp [h])) a'
      · rw [if_neg hqb, if_neg hqb]
        rfl

theorem takeWhile_stop {c₀ : Char} (hc : isDig c₀ = false) (a v : List Char) :
    (a ++ c₀ :: v).takeWhile isDig = a.takeWhile isDig := by
  induction a with
  | nil =>
    rw [List.nil_append, List.takeWhile_cons_of_neg (by rw [hc]; exact Bool.false_ne_true)]
    rfl
  | cons b a' ih =>
    rw [List.cons_append]
    by_cases hb : isDig b = true
    · rw [List.takeWhile_cons_of_pos hb, List.takeWhile_cons_of_pos hb, ih]
    · rw [List.takeWhile_cons_of_neg hb, List.takeWhile_cons_of_neg hb]

theorem dropWhile_stop {c₀ : Char} (hc : isDig c₀ = false) (a v : List Char) :
    (a ++ c₀ :: v).dropWhile isDig = a.dropWhile isDig ++ c₀ :: v := by
  induction a with
  | nil =>
    rw [List.nil_append, List.dropWhile_cons_of_neg (by rw [hc]; exact Bool.false_ne_true)]
    rfl
  | cons b a' ih =>
    rw [List.cons_append]
    by_cases hb : isDig b = true
    · rw [List.dropWhile_cons_of_pos hb, List.dropWhile_cons_of_pos hb, ih]
    · rw [List.dropWhile_cons_of_neg hb, List.dropWhile_cons_of_neg hb]
      rfl

theorem digits1_stop {c₀ : Char} (hc : isDig c₀ = false) (a v : List Char) :
    digits1 (a ++ c₀ :: v) = (digits1 a).map (· ++ c₀ :: v) := by
  simp only [digits1, takeWhile_stop hc, dropWhile_stop hc]
  cases a.takeWhile isDig with
  | nil => rfl
  | cons d ds => rfl

theorem altV_stop {c₀ : Char} (h1 : c₀ ∉ ("词汇".toList))
    (h2 : c₀ ∉ ("Anki%20Chinese%20Cards".toList)) (a v : List Char) :
    altV (a ++ c₀ :: v) = (altV a).map (· ++ c₀ :: v) := by
  simp only [altV]
  rw [stripP_stop h1, stripP_stop h2]
  cases stripP ("词汇".toList) a with
  | none => rfl
  | some r => rfl

theorem tailV_stop {c₀ : Char} (hbl : c₀ ∉ badgeLit) (h1 : c₀ ∉ ("词汇".toList))
    (h2 : c₀ ∉ ("Anki%20Chinese%20Cards".toList)) (hm : c₀ ∉ ['-'])
    (hd : isDig c₀ = false) (hb : c₀ ∉ ("-blue)".toList)) (a v : List Char) :
    tailV (a ++ c₀ :: v) = (tailV a).map (· ++ c₀ :: v) := by
  simp only [tailV]
  rw [stripP_stop hbl]
  cases stripP badgeLit a with
  | none => rfl
  | some a1 =>
    simp only [Option.map_some', Option.some_bind]
    rw [altV_stop h1 h2]
    cases altV a1 with
    | none => rfl
    | some a2 =>
      simp only [Option.map_some', Option.some_bind]
      rw [stripP_stop hm]
      cases stripP (['-']) a2 with
      | none => rfl
      | some a3 =>
        simp only [Option.map_some', Option.some_bind]
        rw [digits1_stop hd]
        cases digits1 a3 with
        | none => rfl
        | some a4 =>
          simp only [Option.map_some', Option.some_bind]
          rw [stripP_stop hb]

theorem tailV_stop_bang (a v : List Char) :
    tailV (a ++ '!' :: v) = (tailV a).map (· ++ '!' :: v) :=
  tailV_stop (by decide) (by decide) (by decide) (by decide) (by decide)
    (by decide) a v

theorem tailV_stop_nl (a v : List Char) :
    tailV (a ++ '\n' :: v) = (tailV a).map (· ++ '\n' :: v) :=
  tailV_stop (by decide) (by decide) (by decide) (by decide) (by decide)
    (by decide) a v

theorem matchS_stop_nl (a v : List Char) :
    matchS (a ++ '\n' :: v) = (matchS a).map (· ++ '\n' :: v) := by
  simp only [matchS]
  rw [stripP_stop (show ('\n' : Char) ∉ streakLit by decide)]
  cases stripP streakLit a with
  | none => rfl
  | some a1 =>
    simp only [Option.map_some', Option.some_bind]
    rw [digits1_stop (by decide)]
    cases digits1 a1 with
    | none => rfl
    | some a2 =>
      simp only [Option.map_some', Option.some_bind]
      rw [stripP_stop (show ('\n' : Char) ∉ orangeLit by decide)]

/-! Unfolding and head lemmas for the matchers. -/

theorem matchV_nil : matchV [] = none := rfl

theorem matchV_single (c : Char) : matchV [c] = none := rfl

theorem matchV_head_ne {c : Char} {x : List Char} (h : c ≠ '!') :
    matchV (c :: x) = none := by
  cases x with
  | nil => rfl
  | cons b rest => simp only [matchV, if_neg h]

theorem matchV_bang (rest : List Char) :
    matchV ('!' :: '[' :: rest) = lazyV rest := by
  simp [matchV]

theorem matchV_some_shape {s r : List Char} (h : matchV s = some r) :
    ∃ rest, s = '!' :: '[' :: rest ∧ lazyV rest = some r := by
  cases s with
  | nil => exact absurd h (by simp [matchV])
  | cons a x =>
    cases x with
    | nil => exact absurd h (by simp [matchV])
    | cons b rest =>
      simp only [matchV] at h
      by_cases ha : a = '!'
      · rw [if_pos ha] at h
        by_cases hb : b = '['
        · rw [if_pos hb] at h
          exact ⟨rest, by rw [ha, hb], h⟩
        · rw [if_neg hb] at h
          exact absurd h (by simp)
      · rw [if_neg ha] at h
        exact absurd h (by simp)

theorem lazyV_unfold (s : List Char) :
    lazyV s = (match tailV s with
      | some r => some r
      | none => match s with
        | [] => none
        | c :: cs => if c = '\n' then none else lazyV cs) := by
  cases s with
  | nil => decide
  | cons c cs => simp only [lazyV]

theorem lazyV_of_tailV {s r : List Char} (ht : tailV s = some r) :
    lazyV s = some r := by
  rw [lazyV_unfold, ht]

theorem lazyV_cons_step {c : Char} {cs : List Char} (ht : tailV (c :: cs) = none)
    (hc : c ≠ '\n') : lazyV (c :: cs) = lazyV cs := by
  rw [lazyV_unfold, ht]
  simp only [if_neg hc]

theorem lazyV_cons_none_elim {c : Char} {cs : List Char}
    (h : lazyV (c :: cs) = none) :
    tailV (c :: cs) = none ∧ (c = '\n' ∨ lazyV cs = none) := by
  rcases ht : tailV (c :: cs) with _ | r
  · refine ⟨rfl, ?_⟩
    by_cases hc : c = '\n'
    · exact Or.inl hc
    · rw [lazyV_cons_step ht hc] at h
      exact Or.inr h
  · rw [lazyV_of_tailV ht] at h
    exact absurd h (by simp)

theorem lazyV_nil : lazyV [] = none := by decide

theorem tailV_head_ne {c : Char} {x : List Char} (h : c ≠ ']') :
    tailV (c :: x) = none := by
  have hbl : badgeLit = ']' :: ("(https://img.shields.io/badge/".toList) := rfl
  have h1 : stripP badgeLit (c :: x) = none := by
    rw [hbl]
    exact stripP_head_ne (fun he => h he.symm)
  simp only [tailV, h1, Option.none_bind]

theorem lazyV_skip {a : List Char} (h : ∀ c ∈ a, c ≠ ']' ∧ c ≠ '\n')
    (z : List Char) : lazyV (a ++ z) = lazyV z := by
  induction a with
  | nil => rfl
  | cons c a' ih =>
    rw [List.cons_append,
      lazyV_cons_step (tailV_head_ne (h c (by simp)).1) (h c (by simp)).2,
      ih (fun c₁ hc₁ => h c₁ (by simp [hc₁]))]

theorem lazyV_digits {ds : List Char} (h : ∀ c ∈ ds, isDig c = true)
    (z : List Char) : lazyV (ds ++ z) = lazyV z :=
  lazyV_skip (fun c hc => ⟨isDig_ne (h c hc) (by decide),
    isDig_ne (h c hc) (by decide)⟩) z

/-! Structure of successful matches. -/

theorem stripP_single {c : Char} (x : List Char) : stripP [c] (c :: x) = some x := by
  simp [stripP]

theorem altV_elim {s r : List Char} (h : altV s = some r) :
    ∃ k, s = k ++ r
      ∧ (k = ("词汇".toList) ∨ k = ("Anki%20Chinese%20Cards".toList)) := by
  simp only [altV] at h
  rcases h1 : stripP ("词汇".toList) s with _ | r1
  · rw [h1] at h
    exact ⟨_, stripP_eq_some_iff.mp h, Or.inr rfl⟩
  · rw [h1] at h
    have : r1 = r := (Option.some.injEq _ _).mp h
    subst this
    exact ⟨_, stripP_eq_some_iff.mp h1, Or.inl rfl⟩

theorem altV_intro {k : List Char} (r : List Char)
    (hk : k = ("词汇".toList) ∨ k = ("Anki%20Chinese%20Cards".toList)) :
    altV (k ++ r) = some r := by
  rcases hk with hk | hk <;> subst hk
  · simp only [altV, stripP_append]
  · have h1 : stripP ("词汇".toList) (("Anki%20Chinese%20Cards".toList) ++ r) = none := by
      have e1 : ("词汇".toList) = '词' :: ("汇".toList) := rfl
      have e2 : ("Anki%20Chinese%20Cards".toList) ++ r
          = 'A' :: (("nki%20Chinese%20Cards".toList) ++ r) := rfl
      rw [e1, e2]
      exact stripP_head_ne (by decide)
    simp only [altV, h1, stripP_append]

theorem tailV_intro {k ds : List Char} (r : List Char)
    (hk : k = ("词汇".toList) ∨ k = ("Anki%20Chinese%20Cards".toList))
    (hne : ds ≠ []) (hall : ∀ c ∈ ds, isDig c = true) :
    tailV (badgeLit ++ (k ++ ('-' :: (ds ++ (("-blue)".toList) ++ r))))) = some r := by
  simp only [tailV, stripP_append, Option.some_bind]
  rw [altV_intro _ hk]
  simp only [Option.some_bind]
  rw [stripP_single]
  simp only [Option.some_bind]
  have hblue : ("-blue)".toList) ++ r = '-' :: (("blue)".toList) ++ r) := rfl
  rw [hblue, digits1_intro '-' (("blue)".toList) ++ r) hne hall (by decide)]
  simp only [Option.some_bind]
  rw [← hblue, stripP_append]

theorem tailV_elim {s r : List Char} (h : tailV s = some r) :
    ∃ k ds, s = badgeLit ++ (k ++ ('-' :: (ds ++ (("-blue)".toList) ++ r))))
      ∧ (k = ("词汇".toList) ∨ k = ("Anki%20Chinese%20Cards".toList))
      ∧ ds ≠ [] ∧ (∀ c ∈ ds, isDig c = true) := by
  simp only [tailV, Option.bind_eq_some] at h
  obtain ⟨s1, h1, s2, h2, s3, h3, s4, h4, h5⟩ := h
  obtain ⟨k, hs1, hk⟩ := altV_elim h2
  obtain ⟨ds, hs3, hdne, hdall, _⟩ := digits1_elim h4
  refine ⟨k, ds, ?_, hk, hdne, hdall⟩
  rw [stripP_eq_some_iff.mp h1, hs1]
  have hs2 : s2 = '-' :: s3 := stripP_eq_some_iff.mp h3
  rw [hs2, hs3, stripP_eq_some_iff.mp h5]

theorem tailV_consumed {s r : List Char} (h : tailV s = some r) :
    ∃ m, s = m ++ r ∧ m ≠ [] ∧ ('\n' : Char) ∉ m := by
  obtain ⟨k, ds, hs, hk, hdne, hdall⟩ := tailV_elim h
  refine ⟨badgeLit ++ (k ++ ('-' :: (ds ++ ("-blue)".toList)))), ?_, by simp, ?_⟩
  · rw [hs]
    simp [List.append_assoc]
  · intro hmem
    simp only [List.mem_append, List.mem_cons] at hmem
    rcases hmem with hm | hm | hm | hm | hm
    · exact absurd hm (by decide)
    · rcases hk with hk | hk <;> subst hk <;> exact absurd hm (by decide)
    · exact absurd hm (by decide)
    · exact absurd (hdall _ hm) (by decide)
    · exact absurd hm (by decide)

theorem lazyV_elim {s r : List Char} (h : lazyV s = some r) :
    ∃ a t, s = a ++ t ∧ ('\n' : Char) ∉ a ∧ tailV t = some r := by
  induction s with
  | nil => exact absurd h (by rw [lazyV_nil]; simp)
  | cons c cs ih =>
    rcases ht : tailV (c :: cs) with _ | r1
    · by_cases hc : c = '\n'
      · rw [lazyV_unfold, ht] at h
        simp only [if_pos hc] at h
        exact absurd h (by simp)
      · rw [lazyV_cons_step ht hc] at h
        obtain ⟨a, t, hs, ha, htt⟩ := ih h
        refine ⟨c :: a, t, by rw [List.cons_append, hs], ?_, htt⟩
        simp only [List.mem_cons]
        rintro (he | he)
        · exact hc he.symm
        · exact ha he
    · rw [lazyV_of_tailV ht] at h
      have : r1 = r := (Option.some.injEq _ _).mp h
      subst this
      exact ⟨[], c :: cs, rfl, by simp, ht⟩

theorem matchV_elim {s r : List Char} (h : matchV s = some r) :
    ∃ m, s = m ++ r ∧ m ≠ [] ∧ ('\n' : Char) ∉ m := by
  obtain ⟨rest, hs, hl⟩ := matchV_some_shape h
  obtain ⟨a, t, hrest, ha, htt⟩ := lazyV_elim hl
  obtain ⟨m, ht, hmne, hmnl⟩ := tailV_consumed htt
  refine ⟨'!' :: '[' :: (a ++ m), ?_, by simp, ?_⟩
  · rw [hs, hrest, ht]
    simp [List.append_assoc]
  · intro hmem
    simp only [List.mem_cons, List.mem_append] at hmem
    rcases hmem with hm | hm | hm | hm
    · exact absurd hm (by decide)
    · exact absurd hm (by decide)
    · exact ha hm
    · exact hmnl hm

theorem matchV_length {s r : List Char} (h : matchV s = some r) :
    r.length < s.length := by
  obtain ⟨m, hs, hmne, _⟩ := matchV_elim h
  rw [hs, List.length_append]
  have : 0 < m.length := List.length_pos.mpr hmne
  omega

theorem matchS_intro {ds : List Char} (r : List Char)
    (hne : ds ≠ []) (hall : ∀ c ∈ ds, isDig c = true) :
    matchS (streakLit ++ (ds ++ (orangeLit ++ r))) = some r := by
  simp only [matchS, stripP_append, Option.some_bind]
  have horange : orangeLit ++ r = '-' :: (("orange)".toList) ++ r) := rfl
  rw [horange, digits1_intro '-' (("orange)".toList) ++ r) hne hall (by decide)]
  simp only [Option.some_bind]
  rw [← horange, stripP_append]

theorem matchS_elim {s r : List Char} (h : matchS s = some r) :
    ∃ ds, s = streakLit ++ (ds ++ (orangeLit ++ r))
      ∧ ds ≠ [] ∧ (∀ c ∈ ds, isDig c = true) := by
  simp only [matchS, Option.bind_eq_some] at h
  obtain ⟨s1, h1, s2, h2, h3⟩ := h
  obtain ⟨ds, hs1, hdne, hdall, _⟩ := digits1_elim h2
  refine ⟨ds, ?_, hdne, hdall⟩
  rw [stripP_eq_some_iff.mp h1, hs1, stripP_eq_some_iff.mp h3]

theorem matchS_consumed {s r : List Char} (h : matchS s = some r) :
    ∃ m, s = m ++ r ∧ m ≠ [] ∧ ('\n' : Char) ∉ m := by
  obtain ⟨ds, hs, hdne, hdall⟩ := matchS_elim h
  refine ⟨streakLit ++ (ds ++ orangeLit), ?_, by simp [streakLit], ?_⟩
  · rw [hs]
    simp [List.append_assoc]
  · intro hmem
    simp only [List.mem_append] at hmem
    rcases hmem with hm | hm | hm
    · exact absurd hm (by decide)
    · exact absurd (hdall _ hm) (by decide)
    · exact absurd hm (by decide)

theorem matchS_length {s r : List Char} (h : matchS s = some r) :
    r.length < s.length := by
  obtain ⟨m, hs, hmne, _⟩ := matchS_consumed h
  rw [hs, List.length_append]
  have : 0 < m.length := List.length_pos.mpr hmne
  omega

theorem matchS_head_ne {c : Char} {x : List Char} (h : c ≠ '!') :
    matchS (c :: x) = none := by
  have hsl : streakLit = '!' :: ("[Day Streak](https://img.shields.io/badge/Day%20Streak-".toList) := rfl
  have h1 : stripP streakLit (c :: x) = none := by
    rw [hsl]
    exact stripP_head_ne (fun he => h he.symm)
  simp only [matchS, h1, Option.none_bind]

theorem matchS_nil : matchS [] = none := rfl

/-! The rendered badges and the patterns. -/

theorem vocabBadge_decomp (w : Nat) :
    vocabBadge w = '!' :: '[' :: (("Anki Chinese Cards".toList)
      ++ (badgeLit ++ (("Anki%20Chinese%20Cards".toList)
        ++ ('-' :: (natDigits w ++ ("-blue)".toList) ++ ([] : List Char)))))) := by
  have hlit : ("![Anki Chinese Cards](https://img.shields.io/badge/Anki%20Chinese%20Cards-".toList)
      = '!' :: '[' :: (("Anki Chinese Cards".toList)
        ++ (badgeLit ++ (("Anki%20Chinese%20Cards".toList) ++ ['-']))) := by decide
  rw [vocabBadge, hlit]
  simp [List.append_assoc]

theorem matchV_badge (w : Nat) (t : List Char) :
    matchV (vocabBadge w ++ t) = some t := by
  obtain ⟨hdne, hdall⟩ := natDigits_spec w
  have hd : vocabBadge w ++ t = '!' :: '[' :: (("Anki Chinese Cards".toList)
      ++ (badgeLit ++ (("Anki%20Chinese%20Cards".toList)
        ++ ('-' :: (natDigits w ++ (("-blue)".toList) ++ t)))))) := by
    rw [vocabBadge]
    have hlit : ("![Anki Chinese Cards](https://img.shields.io/badge/Anki%20Chinese%20Cards-".toList)
        = '!' :: '[' :: (("Anki Chinese Cards".toList)
          ++ (badgeLit ++ (("Anki%20Chinese%20Cards".toList) ++ ['-']))) := by decide
    rw [hlit]
    simp [List.append_assoc]
  rw [hd, matchV_bang, lazyV_skip (by decide)]
  rw [lazyV_of_tailV (tailV_intro t (Or.inr rfl) hdne hdall)]

theorem matchS_badge (st : Nat) (t : List Char) :
    matchS (streakBadge st ++ t) = some t := by
  obtain ⟨hdne, hdall⟩ := natDigits_spec st
  have hd : streakBadge st ++ t
      = streakLit ++ (natDigits st ++ (orangeLit ++ t)) := by
    rw [streakBadge, streakLit, orangeLit]
    simp [List.append_assoc]
  rw [hd]
  exact matchS_intro t hdne hdall

theorem matchS_vocabBadge (w : Nat) (t : List Char) :
    matchS (vocabBadge w ++ t) = none := by
  rcases h : matchS (vocabBadge w ++ t) with _ | r
  · rfl
  · exfalso
    obtain ⟨ds, hs, _, _⟩ := matchS_elim h
    have hV : (vocabBadge w ++ t).take 3 = ['!', '[', 'A'] := by
      rw [vocabBadge, List.append_assoc, List.append_assoc,
        List.take_append_of_le_length (by decide)]
      decide
    have hS : (streakLit ++ (ds ++ (orangeLit ++ r))).take 3 = ['!', '[', 'D'] := by
      rw [List.take_append_of_le_length (by decide)]
      decide
    rw [hs, hS] at hV
    exact absurd hV (by decide)

/-! Unfolding the scanners. -/

theorem subVGo_cons_some {B : List Char} {c : Char} {cs r : List Char}
    (hm : matchV (c :: cs) = some r) :
    subVGo B (c :: cs) = B ++ subVGo B r := by
  rw [subVGo]
  split
  · rename_i r' hm'
    rw [hm] at hm'
    cases hm'
    rfl
  · rename_i hm'
    rw [hm] at hm'
    cases hm'

theorem subVGo_cons_none {B : List Char} {c : Char} {cs : List Char}
    (hm : matchV (c :: cs) = none) :
    subVGo B (c :: cs) = c :: subVGo B cs := by
  rw [subVGo]
  split
  · rename_i r' hm'
    rw [hm] at hm'
    cases hm'
  · rfl

theorem subSGo_cons_some {S : List Char} {c : Char} {cs r : List Char}
    (hm : matchS (c :: cs) = some r) :
    subSGo S (c :: cs) = S ++ subSGo S r := by
  rw [subSGo]
  split
  · rename_i r' hm'
    rw [hm] at hm'
    cases hm'
    rfl
  · rename_i hm'
    rw [hm] at hm'
    cases hm'

theorem subSGo_cons_none {S : List Char} {c : Char} {cs : List Char}
    (hm : matchS (c :: cs) = none) :
    subSGo S (c :: cs) = c :: subSGo S cs := by
  rw [subSGo]
  split
  · rename_i r' hm'
    rw [hm] at hm'
    cases hm'
  · rfl

theorem searchV_cons (c : Char) (cs : List Char) :
    searchV (c :: cs) = ((matchV (c :: cs)).isSome || searchV cs) := rfl

theorem searchV_of_matchV {s r : List Char} (h : matchV s = some r) :
    searchV s = true := by
  cases s with
  | nil => exact absurd h (by simp [matchV_nil])
  | cons c cs => simp [searchV_cons, h]

theorem searchV_append_right {z : List Char} (x : List Char)
    (h : searchV z = true) : searchV (x ++ z) = true := by
  induction x with
  | nil => exact h
  | cons c x' ih =>
    rw [List.cons_append, searchV_cons, ih, Bool.or_true]

theorem searchS_cons (c : Char) (cs : List Char) :
    searchS (c :: cs) = ((matchS (c :: cs)).isSome || searchS cs) := rfl

theorem searchS_of_matchS {s r : List Char} (h : matchS s = some r) :
    searchS s = true := by
  cases s with
  | nil => exact absurd h (by simp [matchS_nil])
  | cons c cs => simp [searchS_cons, h]

theorem searchS_append_right {z : List Char} (x : List Char)
    (h : searchS z = true) : searchS (x ++ z) = true := by
  induction x with
  | nil => exact h
  | cons c x' ih =>
    rw [List.cons_append, searchS_cons, ih, Bool.or_true]

/-! Newline factorization: no match crosses a line boundary. -/

theorem matchV_nl (s z : List Char) :
    matchV (s ++ '\n' :: z) = (matchV s).map (· ++ '\n' :: z) := by
  cases s with
  | nil =>
    rw [List.nil_append, matchV_head_ne (by decide), matchV_nil]
    rfl
  | cons a s' =>
    cases s' with
    | nil =>
      rw [List.cons_append, List.nil_append, matchV_single]
      simp only [matchV]
      by_cases ha : a = '!'
      · rw [if_pos ha, if_neg (by decide : ¬(('\n' : Char) = '['))]
        rfl
      · rw [if_neg ha]
        rfl
    | cons b rest =>
      simp only [List.cons_append, matchV]
      by_cases ha : a = '!'
      · rw [if_pos ha, if_pos ha]
        by_cases hb : b = '['
        · rw [if_pos hb, if_pos hb]
          exact lazyV_nl rest z
        · rw [if_neg hb, if_neg hb]
          rfl
      · rw [if_neg ha, if_neg ha]
        rfl
where
  lazyV_nl (s z : List Char) :
      lazyV (s ++ '\n' :: z) = (lazyV s).map (· ++ '\n' :: z) := by
    induction s with
    | nil =>
      rw [List.nil_append, lazyV_unfold, tailV_head_ne (by decide), lazyV_nil]
      simp
    | cons c cs ih =>
      have ht := tailV_stop_nl (c :: cs) z
      rcases htc : tailV (c :: cs) with _ | r
      · rw [htc] at ht
        simp only [Option.map_none'] at ht
        rw [List.cons_append] at ht ⊢
        by_cases hc : c = '\n'
        · rw [lazyV_unfold, ht, lazyV_unfold, htc]
          simp only [if_pos hc]
          rfl
        · rw [lazyV_cons_step ht hc, lazyV_cons_step htc hc]
          exact ih
      · rw [htc] at ht
        simp only [Option.map_some'] at ht
        rw [List.cons_append] at ht ⊢
        rw [lazyV_of_tailV ht, lazyV_of_tailV htc]
        rfl

theorem lazyV_nl_append (s z : List Char) :
    lazyV (s ++ '\n' :: z) = (lazyV s).map (· ++ '\n' :: z) :=
  matchV_nl.lazyV_nl s z

theorem searchV_nl (a b : List Char) :
    searchV (a ++ '\n' :: b) = (searchV a || searchV b) := by
  induction a with
  | nil =>
    rw [List.nil_append, searchV_cons, matchV_head_ne (by decide)]
    rfl
  | cons c a' ih =>
    rw [List.cons_append, searchV_cons, ← List.cons_append, matchV_nl,
      Option.isSome_map', ih, searchV_cons, Bool.or_assoc]

theorem searchS_nl (a b : List Char) :
    searchS (a ++ '\n' :: b) = (searchS a || searchS b) := by
  induction a with
  | nil =>
    rw [List.nil_append, searchS_cons, matchS_head_ne (by decide)]
    rfl
  | cons c a' ih =>
    rw [List.cons_append, searchS_cons, ← List.cons_append, matchS_stop_nl,
      Option.isSome_map', ih, searchS_cons, Bool.or_assoc]

theorem subVGo_nil (B : List Char) : subVGo B [] = [] := by
  rw [subVGo]

theorem subSGo_nil (S : List Char) : subSGo S [] = [] := by
  rw [subSGo]

theorem subVGo_nl (B : List Char) (a b : List Char) :
    subVGo B (a ++ '\n' :: b) = subVGo B a ++ '\n' :: subVGo B b := by
  have main : ∀ n (a : List Char), a.length ≤ n →
      subVGo B (a ++ '\n' :: b) = subVGo B a ++ '\n' :: subVGo B b := by
    intro n
    induction n with
    | zero =>
      intro a ha
      have : a = [] := List.length_eq_zero.mp (Nat.le_zero.mp ha)
      subst this
      rw [List.nil_append, subVGo_cons_none (matchV_head_ne (by decide)), subVGo_nil,
        List.nil_append]
    | succ n ih =>
      intro a ha
      cases a with
      | nil =>
        rw [List.nil_append, subVGo_cons_none (matchV_head_ne (by decide)), subVGo_nil,
          List.nil_append]
      | cons c a' =>
        have hnl := matchV_nl (c :: a') b
        rcases hm : matchV (c :: a') with _ | r
        · rw [hm] at hnl
          simp only [Option.map_none'] at hnl
          rw [List.cons_append] at hnl
          rw [List.cons_append, subVGo_cons_none hnl, subVGo_cons_none hm,
            List.cons_append]
          rw [ih a' (by simpa using Nat.lt_succ_iff.mp (Nat.lt_of_lt_of_le (Nat.lt_succ_self _) ha))]
        · rw [hm] at hnl
          simp only [Option.map_some'] at hnl
          rw [List.cons_append] at hnl
          rw [List.cons_append, subVGo_cons_some hnl, subVGo_cons_some hm]
          have hr : r.length ≤ n := by
            have := matchV_length hm
            simp only [List.length_cons] at this ha
            omega
          rw [ih r hr, List.append_assoc]
  exact main a.length a (Nat.le_refl _)

theorem subSGo_nl (S : List Char) (a b : List Char) :
    subSGo S (a ++ '\n' :: b) = subSGo S a ++ '\n' :: subSGo S b := by
  have main : ∀ n (a : List Char), a.length ≤ n →
      subSGo S (a ++ '\n' :: b) = subSGo S a ++ '\n' :: subSGo S b := by
    intro n
    induction n with
    | zero =>
      intro a ha
      have : a = [] := List.length_eq_zero.mp (Nat.le_zero.mp ha)
      subst this
      rw [List.nil_append, subSGo_cons_none (matchS_head_ne (by decide)), subSGo_nil,
        List.nil_append]
    | succ n ih =>
      intro a ha
      cases a with
      | nil =>
        rw [List.nil_append, subSGo_cons_none (matchS_head_ne (by decide)), subSGo_nil,
          List.nil_append]
      | cons c a' =>
        have hnl := matchS_stop_nl (c :: a') b
        rcases hm : matchS (c :: a') with _ | r
        · rw [hm] at hnl
          simp only [Option.map_none'] at hnl
          rw [List.cons_append] at hnl
          rw [List.cons_append, subSGo_cons_none hnl, subSGo_cons_none hm,
            List.cons_append]
          rw [ih a' (by simpa using Nat.lt_succ_iff.mp (Nat.lt_of_lt_of_le (Nat.lt_succ_self _) ha))]
        · rw [hm] at hnl
          simp only [Option.map_some'] at hnl
          rw [List.cons_append] at hnl
          rw [List.cons_append, subSGo_cons_some hnl, subSGo_cons_some hm]
          have hr : r.length ≤ n := by
            have := matchS_length hm
            simp only [List.length_cons] at this ha
            omega
          rw [ih r hr, List.append_assoc]
  exact main a.length a (Nat.le_refl _)

/-! Decompositions of the rendered badges, and character inventories. -/

theorem streakBadge_eq (st : Nat) :
    streakBadge st = streakLit ++ (natDigits st ++ orangeLit) := by
  rw [streakBadge, streakLit, orangeLit, List.append_assoc]

theorem streakBadge_cons (st : Nat) :
    streakBadge st = '!' :: (("[Day Streak](https://img.shields.io/badge/Day%20Streak-".toList)
      ++ (natDigits st ++ ("-orange)".toList))) := by
  have h : ("![Day Streak](https://img.shields.io/badge/Day%20Streak-".toList)
      = '!' :: ("[Day Streak](https://img.shields.io/badge/Day%20Streak-".toList) := by decide
  rw [streakBadge, h]
  simp [List.append_assoc]

theorem vocabBadge_cons (w : Nat) :
    vocabBadge w = '!' :: (("[Anki Chinese Cards](https://img.shields.io/badge/Anki%20Chinese%20Cards-".toList)
      ++ (natDigits w ++ ("-blue)".toList))) := by
  have h : ("![Anki Chinese Cards](https://img.shields.io/badge/Anki%20Chinese%20Cards-".toList)
      = '!' :: ("[Anki Chinese Cards](https://img.shields.io/badge/Anki%20Chinese%20Cards-".toList) := by decide
  rw [vocabBadge, h]
  simp [List.append_assoc]

theorem vb_tail_no_bang (w : Nat) :
    ∀ c ∈ (("[Anki Chinese Cards](https://img.shields.io/badge/Anki%20Chinese%20Cards-".toList)
      ++ (natDigits w ++ ("-blue)".toList))), c ≠ '!' := by
  intro c hc
  simp only [List.mem_append] at hc
  rcases hc with hc | hc | hc
  · exact (by decide :
      ∀ c ∈ ("[Anki Chinese Cards](https://img.shields.io/badge/Anki%20Chinese%20Cards-".toList),
        c ≠ '!') c hc
  · exact isDig_ne ((natDigits_spec w).2 c hc) (by decide)
  · exact (by decide : ∀ c ∈ ("-blue)".toList), c ≠ '!') c hc

theorem sb_tail_no_bang (st : Nat) :
    ∀ c ∈ (("[Day Streak](https://img.shields.io/badge/Day%20Streak-".toList)
      ++ (natDigits st ++ ("-orange)".toList))), c ≠ '!' := by
  intro c hc
  simp only [List.mem_append] at hc
  rcases hc with hc | hc | hc
  · exact (by decide :
      ∀ c ∈ ("[Day Streak](https://img.shields.io/badge/Day%20Streak-".toList), c ≠ '!') c hc
  · exact isDig_ne ((natDigits_spec st).2 c hc) (by decide)
  · exact (by decide : ∀ c ∈ ("-orange)".toList), c ≠ '!') c hc

theorem nl_not_in_vocabBadge (w : Nat) : ('\n' : Char) ∉ vocabBadge w := by
  rw [vocabBadge]
  intro h
  simp only [List.mem_append] at h
  rcases h with (h | h) | h
  · exact (by decide : ('\n' : Char) ∉
      ("![Anki Chinese Cards](https://img.shields.io/badge/Anki%20Chinese%20Cards-".toList)) h
  · exact absurd ((natDigits_spec w).2 _ h) (by decide)
  · exact (by decide : ('\n' : Char) ∉ ("-blue)".toList)) h

/-! `'!'` is a stop character for the streak matcher once the anchor is past. -/

theorem matchS_stop_bang (c : Char) (a v : List Char) :
    matchS ((c :: a) ++ '!' :: v) = (matchS (c :: a)).map (· ++ '!' :: v) := by
  by_cases hc : c = '!'
  · subst hc
    have hstep : ∀ x : List Char, stripP streakLit ('!' :: x)
        = stripP ("[Day Streak](https://img.shields.io/badge/Day%20Streak-".toList) x := by
      intro x
      have hsl : streakLit
          = '!' :: ("[Day Streak](https://img.shields.io/badge/Day%20Streak-".toList) := rfl
      rw [hsl]
      simp [stripP]
    simp only [matchS, List.cons_append, hstep]
    rw [stripP_stop (show ('!' : Char) ∉
      ("[Day Streak](https://img.shields.io/badge/Day%20Streak-".toList) by decide)]
    cases stripP ("[Day Streak](https://img.shields.io/badge/Day%20Streak-".toList) a with
    | none => rfl
    | some a1 =>
      simp only [Option.map_some', Option.some_bind]
      rw [digits1_stop (by decide)]
      cases digits1 a1 with
      | none => rfl
      | some a2 =>
        simp only [Option.map_some', Option.some_bind]
        rw [stripP_stop (show ('!' : Char) ∉ orangeLit by decide)]
  · rw [List.cons_append, matchS_head_ne hc, matchS_head_ne hc]
    rfl

/-! The rewriters keep every `'!'` of the input aligned: they replace a
match (which starts with `'!'`) by a badge (which also starts with `'!'`). -/

theorem subVGo_bang_align (q : List Char) (B : List Char) (hB : B = '!' :: q)
    (cs : List Char) :
    subVGo B cs = cs ∨
      ∃ u v w', cs = u ++ '!' :: v ∧ subVGo B cs = u ++ '!' :: w' := by
  induction cs with
  | nil => exact Or.inl (subVGo_nil B)
  | cons c cs' ih =>
    rcases hm : matchV (c :: cs') with _ | r
    · rw [subVGo_cons_none hm]
      rcases ih with h | ⟨u, v, w', hcs, hsub⟩
      · exact Or.inl (by rw [h])
      · refine Or.inr ⟨c :: u, v, w', ?_, ?_⟩
        · rw [List.cons_append, hcs]
        · rw [List.cons_append, hsub]
    · obtain ⟨rest, hshape, _⟩ := matchV_some_shape hm
      have hc : c = '!' := by
        have := congrArg (·.headI) hshape
        simpa using this
      rw [subVGo_cons_some hm]
      exact Or.inr ⟨[], cs', q ++ subVGo B r, by simp [hc], by simp [hB]⟩

theorem subSGo_bang_align (q : List Char) (S : List Char) (hS : S = '!' :: q)
    (cs : List Char) :
    subSGo S cs = cs ∨
      ∃ u v w', cs = u ++ '!' :: v ∧ subSGo S cs = u ++ '!' :: w' := by
  induction cs with
  | nil => exact Or.inl (subSGo_nil S)
  | cons c cs' ih =>
    rcases hm : matchS (c :: cs') with _ | r
    · rw [subSGo_cons_none hm]
      rcases ih with h | ⟨u, v, w', hcs, hsub⟩
      · exact Or.inl (by rw [h])
      · refine Or.inr ⟨c :: u, v, w', ?_, ?_⟩
        · rw [List.cons_append, hcs]
        · rw [List.cons_append, hsub]
    · have hc : c = '!' := by
        by_contra hne
        rw [matchS_head_ne hne] at hm
        exact absurd hm (by simp)
      rw [subSGo_cons_some hm]
      exact Or.inr ⟨[], cs', q ++ subSGo S r, by simp [hc], by simp [hS]⟩

theorem tailV_align_none {d : Char} {x y : List Char}
    (hal : y = x ∨ ∃ u v w', x = u ++ '!' :: v ∧ y = u ++ '!' :: w')
    (h : tailV (d :: x) = none) : tailV (d :: y) = none := by
  rcases hal with h0 | ⟨u, v, w', hx, hy⟩
  · rw [h0]
    exact h
  · rw [hx, ← List.cons_append, tailV_stop_bang] at h
    have h1 : tailV (d :: u) = none := by
      rcases h2 : tailV (d :: u) with _ | r
      · rfl
      · rw [h2] at h
        exact absurd h (by simp)
    rw [hy, ← List.cons_append, tailV_stop_bang, h1]
    rfl

/-! A string with no lazy-scan vocab match has no anchored vocab match. -/

theorem lazyV_isSome_mono {a t r : List Char} (ha : ('\n' : Char) ∉ a)
    (ht : tailV t = some r) : lazyV (a ++ t) ≠ none := by
  induction a with
  | nil =>
    rw [List.nil_append, lazyV_of_tailV ht]
    simp
  | cons c a' ih =>
    rw [List.cons_append]
    rcases h2 : tailV (c :: (a' ++ t)) with _ | r2
    · have hc : c ≠ '\n' := fun he => ha (by simp [he])
      rw [lazyV_cons_step h2 hc]
      exact ih (fun hm => ha (by simp [hm]))
    · rw [lazyV_of_tailV h2]
      simp

theorem lazyV_none_matchV {x : List Char} (h : lazyV x = none) :
    matchV x = none := by
  rcases hm : matchV x with _ | r
  · rfl
  · exfalso
    obtain ⟨rest, hx, hl⟩ := matchV_some_shape hm
    obtain ⟨a, t, hrest, ha, htt⟩ := lazyV_elim hl
    have hnl : ('\n' : Char) ∉ ('!' :: '[' :: a) := by
      simp only [List.mem_cons]
      rintro (h1 | h1 | h1)
      · exact absurd h1 (by decide)
      · exact absurd h1 (by decide)
      · exact ha h1
    apply lazyV_isSome_mono hnl htt
    rw [hx, hrest] at h
    simpa using h

/-! The vocab lazy scan passes over a streak badge without matching. -/

theorem altV_D (y : List Char) : altV ('D' :: y) = none := by
  have h1 : stripP ("词汇".toList) ('D' :: y) = none := by
    have e : ("词汇".toList) = '词' :: ("汇".toList) := rfl
    rw [e]
    exact stripP_head_ne (by decide)
  have h2 : stripP ("Anki%20Chinese%20Cards".toList) ('D' :: y) = none := by
    have e : ("Anki%20Chinese%20Cards".toList) = 'A' :: ("nki%20Chinese%20Cards".toList) := rfl
    rw [e]
    exact stripP_head_ne (by decide)
  simp only [altV, h1, h2]

theorem tailV_day (x : List Char) :
    tailV (']' :: (("(https://img.shields.io/badge/Day%20Streak-".toList) ++ x)) = none := by
  have hb : (']' : Char) :: (("(https://img.shields.io/badge/Day%20Streak-".toList) ++ x)
      = badgeLit ++ (("Day%20Streak-".toList) ++ x) := by
    have e1 : badgeLit = ']' :: ("(https://img.shields.io/badge/".toList) := rfl
    have e2 : ("(https://img.shields.io/badge/Day%20Streak-".toList)
        = ("(https://img.shields.io/badge/".toList) ++ ("Day%20Streak-".toList) := by decide
    rw [e1, e2, List.cons_append, List.append_assoc]
  have e3 : ("Day%20Streak-".toList) ++ x = 'D' :: (("ay%20Streak-".toList) ++ x) := rfl
  rw [hb]
  simp only [tailV, stripP_append, Option.some_bind, e3, altV_D, Option.none_bind]

theorem lazyV_streak_core (ds r : List Char) (hds : ∀ c ∈ ds, isDig c = true) :
    lazyV (("Day Streak](https://img.shields.io/badge/Day%20Streak-".toList)
      ++ (ds ++ (orangeLit ++ r))) = lazyV r := by
  have hsplit : ("Day Streak](https://img.shields.io/badge/Day%20Streak-".toList)
      = ("Day Streak".toList)
        ++ ']' :: ("(https://img.shields.io/badge/Day%20Streak-".toList) := by decide
  have h1 : lazyV (("Day Streak".toList)
      ++ ((']' :: ("(https://img.shields.io/badge/Day%20Streak-".toList))
        ++ (ds ++ (orangeLit ++ r))))
      = lazyV ((']' :: ("(https://img.shields.io/badge/Day%20Streak-".toList))
        ++ (ds ++ (orangeLit ++ r))) := lazyV_skip (by decide) _
  have h3 : lazyV (("(https://img.shields.io/badge/Day%20Streak-".toList)
      ++ (ds ++ (orangeLit ++ r))) = lazyV (ds ++ (orangeLit ++ r)) :=
    lazyV_skip (by decide) _
  have h5 : lazyV (orangeLit ++ r) = lazyV r := lazyV_skip (by decide) _
  rw [hsplit, List.append_assoc, h1, List.cons_append,
    lazyV_cons_step (tailV_day _) (by decide), h3, lazyV_digits hds, h5]

theorem lazyV_streak_full (ds r : List Char) (hds : ∀ c ∈ ds, isDig c = true) :
    lazyV (streakLit ++ (ds ++ (orangeLit ++ r))) = lazyV r := by
  have hsplit : streakLit = ("![".toList)
      ++ ("Day Streak](https://img.shields.io/badge/Day%20Streak-".toList) := by decide
  have h1 : lazyV (("![".toList)
      ++ (("Day Streak](https://img.shields.io/badge/Day%20Streak-".toList)
        ++ (ds ++ (orangeLit ++ r))))
      = lazyV (("Day Streak](https://img.shields.io/badge/Day%20Streak-".toList)
        ++ (ds ++ (orangeLit ++ r))) := lazyV_skip (by decide) _
  rw [hsplit, List.append_assoc, h1, lazyV_streak_core ds r hds]

/-! Rewriting the tail of a string cannot create a vocab match at a
position where none existed (the scan state at the rewritten part is
blocked by the leading `'!'` of the inserted badge). -/

theorem lazyV_none_subVGo (q B : List Char) (hB : B = '!' :: q) :
    ∀ x : List Char, lazyV x = none → lazyV (subVGo B x) = none := by
  intro x
  induction x with
  | nil =>
    intro _
    rw [subVGo_nil]
    exact lazyV_nil
  | cons c cs ih =>
    intro h
    obtain ⟨ht, hrest⟩ := lazyV_cons_none_elim h
    have hm : matchV (c :: cs) = none := lazyV_none_matchV h
    rw [subVGo_cons_none hm]
    have ht' : tailV (c :: subVGo B cs) = none :=
      tailV_align_none (subVGo_bang_align q B hB cs) ht
    by_cases hc : c = '\n'
    · subst hc
      rw [lazyV_unfold, ht']
      simp
    · have hl : lazyV cs = none := hrest.resolve_left hc
      rw [lazyV_cons_step ht' hc]
      exact ih hl

theorem lazyV_none_subSGo (st : Nat) :
    ∀ x : List Char, lazyV x = none → lazyV (subSGo (streakBadge st) x) = none := by
  have main : ∀ n (x : List Char), x.length ≤ n → lazyV x = none →
      lazyV (subSGo (streakBadge st) x) = none := by
    intro n
    induction n with
    | zero =>
      intro x hx h
      have : x = [] := List.length_eq_zero.mp (Nat.le_zero.mp hx)
      subst this
      rw [subSGo_nil]
      exact h
    | succ n ih =>
      intro x hx h
      cases x with
      | nil =>
        rw [subSGo_nil]
        exact h
      | cons c cs =>
        rcases hm : matchS (c :: cs) with _ | r
        · obtain ⟨ht, hrest⟩ := lazyV_cons_none_elim h
          rw [subSGo_cons_none hm]
          have ht' : tailV (c :: subSGo (streakBadge st) cs) = none :=
            tailV_align_none
              (subSGo_bang_align _ (streakBadge st) (streakBadge_cons st) cs) ht
          by_cases hc : c = '\n'
          · subst hc
            rw [lazyV_unfold, ht']
            simp
          · have hl : lazyV cs = none := hrest.resolve_left hc
            rw [lazyV_cons_step ht' hc]
            exact ih cs (by simp only [List.length_cons] at hx; omega) hl
        · rw [subSGo_cons_some hm]
          obtain ⟨ds, hshape, hdne, hdall⟩ := matchS_elim hm
          have hr : lazyV r = none := by
            rw [hshape, lazyV_streak_full ds r hdall] at h
            exact h
          have hZ : lazyV (subSGo (streakBadge st) r) = none :=
            ih r (by
              have := matchS_length hm
              simp only [List.length_cons] at hx this
              omega) hr
          rw [streakBadge_eq st, List.append_assoc, List.append_assoc,
            lazyV_streak_full (natDigits st) _ ((natDigits_spec st).2)]
          exact hZ
  exact fun x => main x.length x (Nat.le_refl _)

/-! No new match appears at an unmatched position after rewriting the tail. -/

theorem matchV_none_subVGo (w : Nat) {c : Char} {cs : List Char}
    (h : matchV (c :: cs) = none) :
    matchV (c :: subVGo (vocabBadge w) cs) = none := by
  by_cases hc : c = '!'
  · subst hc
    cases cs with
    | nil =>
      rw [subVGo_nil]
      exact matchV_single '!'
    | cons b cs' =>
      rcases hm : matchV (b :: cs') with _ | r
      · rw [subVGo_cons_none hm]
        by_cases hb : b = '['
        · subst hb
          rw [matchV_bang] at h
          rw [matchV_bang]
          exact lazyV_none_subVGo _ _ (vocabBadge_cons w) cs' h
        · simp [matchV, hb]
      · rw [subVGo_cons_some hm, vocabBadge_cons w, List.cons_append]
        simp [matchV]
  · exact matchV_head_ne hc

theorem matchV_none_subSGo (st : Nat) {c : Char} {cs : List Char}
    (h : matchV (c :: cs) = none) :
    matchV (c :: subSGo (streakBadge st) cs) = none := by
  by_cases hc : c = '!'
  · subst hc
    cases cs with
    | nil =>
      rw [subSGo_nil]
      exact matchV_single '!'
    | cons b cs' =>
      rcases hm : matchS (b :: cs') with _ | r
      · rw [subSGo_cons_none hm]
        by_cases hb : b = '['
        · subst hb
          rw [matchV_bang] at h
          rw [matchV_bang]
          exact lazyV_none_subSGo st cs' h
        · simp [matchV, hb]
      · rw [subSGo_cons_some hm, streakBadge_cons st, List.cons_append]
        simp [matchV]
  · exact matchV_head_ne hc

theorem matchS_none_subSGo (q S : List Char) (hS : S = '!' :: q)
    {c : Char} {cs : List Char} (h : matchS (c :: cs) = none) :
    matchS (c :: subSGo S cs) = none := by
  rcases subSGo_bang_align q S hS cs with h0 | ⟨u, v, w', hcs, hsub⟩
  · rw [h0]
    exact h
  · rw [hcs, ← List.cons_append, matchS_stop_bang] at h
    have h1 : matchS (c :: u) = none := by
      rcases h2 : matchS (c :: u) with _ | r
      · rfl
      · rw [h2] at h
        exact absurd h (by simp)
    rw [hsub, ← List.cons_append, matchS_stop_bang, h1]
    rfl

/-! Stepping the rewriters over a copy of their own badge. -/

theorem subVGo_badge_self (w : Nat) (t : List Char) :
    subVGo (vocabBadge w) (vocabBadge w ++ t)
      = vocabBadge w ++ subVGo (vocabBadge w) t := by
  have hm := matchV_badge w t
  rw [vocabBadge_cons w, List.cons_append] at hm ⊢
  rw [subVGo_cons_some hm]

theorem subSGo_badge_self (st : Nat) (t : List Char) :
    subSGo (streakBadge st) (streakBadge st ++ t)
      = streakBadge st ++ subSGo (streakBadge st) t := by
  have hm := matchS_badge st t
  rw [streakBadge_cons st, List.cons_append] at hm ⊢
  rw [subSGo_cons_some hm]

/-! `re.sub` is the identity when `re.search` fails, and keeps the
pattern present when it succeeds. -/

theorem subVGo_id_of_not_search (B : List Char) :
    ∀ s : List Char, searchV s = false → subVGo B s = s := by
  intro s
  induction s with
  | nil =>
    intro _
    exact subVGo_nil B
  | cons c cs ih =>
    intro h
    rcases hm : matchV (c :: cs) with _ | r
    · rw [subVGo_cons_none hm]
      rw [searchV_cons, hm] at h
      simp only [Option.isSome_none, Bool.false_or] at h
      rw [ih h]
    · rw [searchV_cons, hm] at h
      simp at h

theorem subSGo_id_of_not_search (S : List Char) :
    ∀ s : List Char, searchS s = false → subSGo S s = s := by
  intro s
  induction s with
  | nil =>
    intro _
    exact subSGo_nil S
  | cons c cs ih =>
    intro h
    rcases hm : matchS (c :: cs) with _ | r
    · rw [subSGo_cons_none hm]
      rw [searchS_cons, hm] at h
      simp only [Option.isSome_none, Bool.false_or] at h
      rw [ih h]
    · rw [searchS_cons, hm] at h
      simp at h

theorem searchV_subVGo (w : Nat) :
    ∀ s : List Char, searchV s = true → searchV (subVGo (vocabBadge w) s) = true := by
  intro s
  induction s with
  | nil =>
    intro h
    exact Bool.noConfusion h
  | cons c cs ih =>
    intro h
    rcases hm : matchV (c :: cs) with _ | r
    · rw [subVGo_cons_none hm]
      rw [searchV_cons, hm] at h
      simp only [Option.isSome_none, Bool.false_or] at h
      rw [searchV_cons, ih h, Bool.or_true]
    · rw [subVGo_cons_some hm]
      exact searchV_of_matchV (matchV_badge w _)

theorem searchS_subSGo (st : Nat) :
    ∀ s : List Char, searchS s = true → searchS (subSGo (streakBadge st) s) = true := by
  intro s
  induction s with
  | nil =>
    intro h
    exact Bool.noConfusion h
  | cons c cs ih =>
    intro h
    rcases hm : matchS (c :: cs) with _ | r
    · rw [subSGo_cons_none hm]
      rw [searchS_cons, hm] at h
      simp only [Option.isSome_none, Bool.false_or] at h
      rw [searchS_cons, ih h, Bool.or_true]
    · rw [subSGo_cons_some hm]
      exact searchS_of_matchS (matchS_badge st _)

/-! Idempotence of each single-pattern rewriter. -/

theorem subVGo_idem (w : Nat) (s : List Char) :
    subVGo (vocabBadge w) (subVGo (vocabBadge w) s) = subVGo (vocabBadge w) s := by
  have main : ∀ n (s : List Char), s.length ≤ n →
      subVGo (vocabBadge w) (subVGo (vocabBadge w) s) = subVGo (vocabBadge w) s := by
    intro n
    induction n with
    | zero =>
      intro s hs
      have : s = [] := List.length_eq_zero.mp (Nat.le_zero.mp hs)
      subst this
      rw [subVGo_nil, subVGo_nil]
    | succ n ih =>
      intro s hs
      cases s with
      | nil => rw [subVGo_nil, subVGo_nil]
      | cons c cs =>
        rcases hm : matchV (c :: cs) with _ | r
        · rw [subVGo_cons_none hm,
            subVGo_cons_none (matchV_none_subVGo w hm),
            ih cs (by simp only [List.length_cons] at hs; omega)]
        · rw [subVGo_cons_some hm, subVGo_badge_self w,
            ih r (by
              have := matchV_length hm
              simp only [List.length_cons] at hs this
              omega)]
  exact main s.length s (Nat.le_refl _)

theorem subSGo_idem (st : Nat) (s : List Char) :
    subSGo (streakBadge st) (subSGo (streakBadge st) s) = subSGo (streakBadge st) s := by
  have main : ∀ n (s : List Char), s.length ≤ n →
      subSGo (streakBadge st) (subSGo (streakBadge st) s) = subSGo (streakBadge st) s := by
    intro n
    induction n with
    | zero =>
      intro s hs
      have : s = [] := List.length_eq_zero.mp (Nat.le_zero.mp hs)
      subst this
      rw [subSGo_nil, subSGo_nil]
    | succ n ih =>
      intro s hs
      cases s with
      | nil => rw [subSGo_nil, subSGo_nil]
      | cons c cs =>
        rcases hm : matchS (c :: cs) with _ | r
        · rw [subSGo_cons_none hm,
            subSGo_cons_none (matchS_none_subSGo _ (streakBadge st)
              (streakBadge_cons st) hm),
            ih cs (by simp only [List.length_cons] at hs; omega)]
        · rw [subSGo_cons_some hm, subSGo_badge_self st,
            ih r (by
              have := matchS_length hm
              simp only [List.length_cons] at hs this
              omega)]
  exact main s.length s (Nat.le_refl _)

/-! Scanning over a `'!'`-free region finds nothing. -/

theorem searchV_no_bang_skip {m : List Char} (h : ∀ c ∈ m, c ≠ '!')
    (r : List Char) : searchV (m ++ r) = searchV r := by
  induction m with
  | nil => rfl
  | cons c m' ih =>
    rw [List.cons_append, searchV_cons, matchV_head_ne (h c (by simp)),
      ih (fun c₁ hc₁ => h c₁ (by simp [hc₁]))]
    simp

/-! Structure theory of `NormV`: the fixed points of the vocab rewriter. -/

theorem NormV_inv {B x : List Char} (h : NormV B x) :
    x = [] ∨ (∃ c cs, x = c :: cs ∧ matchV (c :: cs) = none ∧ NormV B cs)
      ∨ ∃ t, x = B ++ t ∧ NormV B t := by
  cases h with
  | nil => exact Or.inl rfl
  | cons c cs hm hn => exact Or.inr (Or.inl ⟨c, cs, rfl, hm, hn⟩)
  | badge t hn => exact Or.inr (Or.inr ⟨t, rfl, hn⟩)

theorem NormV_skip_no_bang {B : List Char} {z t : List Char}
    (hz : ∀ c ∈ z, c ≠ '!') (ht : NormV B t) : NormV B (z ++ t) := by
  induction z with
  | nil => exact ht
  | cons c z' ih =>
    rw [List.cons_append]
    exact NormV.cons c (z' ++ t) (matchV_head_ne (hz c (by simp)))
      (ih (fun c₁ h₁ => hz c₁ (by simp [h₁])))

theorem NormV_suffix (w : Nat) {x : List Char} (h : NormV (vocabBadge w) x) :
    ∀ a r : List Char, x = a ++ r → NormV (vocabBadge w) r := by
  induction h with
  | nil =>
    intro a r har
    have : r = [] := (List.append_eq_nil.mp har.symm).2
    rw [this]
    exact NormV.nil
  | cons c cs hm hn ih =>
    intro a r har
    cases a with
    | nil =>
      rw [List.nil_append] at har
      rw [← har]
      exact NormV.cons c cs hm hn
    | cons a0 a' =>
      rw [List.cons_append] at har
      injection har with h1 h2
      exact ih a' r h2
  | badge t hn ih =>
    intro a r har
    rcases List.append_eq_append_iff.mp har with ⟨a', ha, ht'⟩ | ⟨c', hvb, hr⟩
    · exact ih a' r ht'
    · cases a with
      | nil =>
        rw [List.nil_append] at hvb
        rw [hr, ← hvb]
        exact NormV.badge t hn
      | cons a0 a'' =>
        have hvb2 := vocabBadge_cons w
        rw [hvb2, List.cons_append] at hvb
        injection hvb with h1 h2
        have hmem : ∀ ch ∈ c', ch ≠ '!' := by
          intro ch hch
          exact vb_tail_no_bang w ch (by rw [h2]; exact List.mem_append_right _ hch)
        rw [hr]
        exact NormV_skip_no_bang hmem hn

theorem subVGo_NormV (w : Nat) (s : List Char) :
    NormV (vocabBadge w) (subVGo (vocabBadge w) s) := by
  have main : ∀ n (s : List Char), s.length ≤ n →
      NormV (vocabBadge w) (subVGo (vocabBadge w) s) := by
    intro n
    induction n with
    | zero =>
      intro s hs
      have : s = [] := List.length_eq_zero.mp (Nat.le_zero.mp hs)
      subst this
      rw [subVGo_nil]
      exact NormV.nil
    | succ n ih =>
      intro s hs
      cases s with
      | nil =>
        rw [subVGo_nil]
        exact NormV.nil
      | cons c cs =>
        rcases hm : matchV (c :: cs) with _ | r
        · rw [subVGo_cons_none hm]
          exact NormV.cons _ _ (matchV_none_subVGo w hm)
            (ih cs (by simp only [List.length_cons] at hs; omega))
        · rw [subVGo_cons_some hm]
          exact NormV.badge _ (ih r (by
            have := matchV_length hm
            simp only [List.length_cons] at hs this
            omega))
  exact main s.length s (Nat.le_refl _)

theorem NormV_fix (w : Nat) {x : List Char} (h : NormV (vocabBadge w) x) :
    subVGo (vocabBadge w) x = x := by
  induction h with
  | nil => exact subVGo_nil _
  | cons c cs hm hn ih => rw [subVGo_cons_none hm, ih]
  | badge t hn ih => rw [subVGo_badge_self w, ih]

theorem NormV_complete (w : Nat) :
    ∀ x : List Char, subVGo (vocabBadge w) x = x → NormV (vocabBadge w) x := by
  intro x
  induction x with
  | nil =>
    intro _
    exact NormV.nil
  | cons c cs ih =>
    intro h
    rcases hm : matchV (c :: cs) with _ | r
    · rw [subVGo_cons_none hm] at h
      injection h with h1 h2
      exact NormV.cons c cs hm (ih h2)
    · rw [subVGo_cons_some hm] at h
      rw [← h]
      exact NormV.badge _ (subVGo_NormV w r)

/-! The streak rewriter scans straight over a vocab badge. -/

theorem subSGo_scan_skip (S : List Char) :
    ∀ (m t : List Char),
      (∀ (m₁ : List Char) (d : Char) (m₂ : List Char), m = m₁ ++ d :: m₂ →
        matchS ((d :: m₂) ++ t) = none) →
      subSGo S (m ++ t) = m ++ subSGo S t := by
  intro m
  induction m with
  | nil =>
    intro t _
    rw [List.nil_append, List.nil_append]
  | cons c m' ih =>
    intro t hno
    rw [List.cons_append]
    have h0 : matchS (c :: (m' ++ t)) = none := by
      have h1 := hno [] c m' rfl
      rw [List.cons_append] at h1
      exact h1
    rw [subSGo_cons_none h0,
      ih t (fun m₁ d m₂ hm => hno (c :: m₁) d m₂ (by rw [List.cons_append, hm])),
      List.cons_append]

theorem subSGo_vb_skip (w : Nat) (S : List Char) (t : List Char) :
    subSGo S (vocabBadge w ++ t) = vocabBadge w ++ subSGo S t := by
  apply subSGo_scan_skip
  intro m₁ d m₂ hm
  cases m₁ with
  | nil =>
    rw [List.nil_append] at hm
    rw [← hm]
    exact matchS_vocabBadge w t
  | cons e m₁' =>
    rw [vocabBadge_cons w, List.cons_append] at hm
    injection hm with h1 h2
    have hd : d ≠ '!' :=
      vb_tail_no_bang w d (by rw [h2]; exact List.mem_append_right _ (by simp))
    rw [List.cons_append]
    exact matchS_head_ne hd

/-! A streak badge followed by a vocab-match-free tail starts no vocab match. -/

theorem matchV_sb_append (st : Nat) (Z : List Char) (hZ : lazyV Z = none) :
    matchV (streakBadge st ++ Z) = none := by
  rw [streakBadge_eq st, List.append_assoc, List.append_assoc,
    show streakLit = '!' :: '['
      :: ("Day Streak](https://img.shields.io/badge/Day%20Streak-".toList) from by decide,
    List.cons_append, List.cons_append, matchV_bang,
    lazyV_streak_core (natDigits st) Z ((natDigits_spec st).2)]
  exact hZ

theorem NormV_sb_append (w st : Nat) (Z : List Char) (hZ : lazyV Z = none)
    (hN : NormV (vocabBadge w) Z) :
    NormV (vocabBadge w) (streakBadge st ++ Z) := by
  have hmv := matchV_sb_append st Z hZ
  rw [streakBadge_cons st, List.cons_append] at hmv ⊢
  exact NormV.cons _ _ hmv (NormV_skip_no_bang (sb_tail_no_bang st) hN)

/-! The key cross-pattern fact: the streak rewriter preserves being a
fixed point of the vocab rewriter, and preserves vocab searchability. -/

theorem NormV_subSGo (w st : Nat) :
    ∀ x : List Char, NormV (vocabBadge w) x →
      NormV (vocabBadge w) (subSGo (streakBadge st) x)
        ∧ (searchV x = true → searchV (subSGo (streakBadge st) x) = true) := by
  have main : ∀ n (x : List Char), x.length ≤ n → NormV (vocabBadge w) x →
      NormV (vocabBadge w) (subSGo (streakBadge st) x)
        ∧ (searchV x = true → searchV (subSGo (streakBadge st) x) = true) := by
    intro n
    induction n with
    | zero =>
      intro x hx h
      have : x = [] := List.length_eq_zero.mp (Nat.le_zero.mp hx)
      subst this
      rw [subSGo_nil]
      exact ⟨NormV.nil, fun h1 => h1⟩
    | succ n ih =>
      intro x hx hN
      rcases NormV_inv hN with hnil | ⟨c, cs, hx0, hm, hcs⟩ | ⟨t, hx0, ht⟩
      · subst hnil
        rw [subSGo_nil]
        exact ⟨NormV.nil, fun h1 => h1⟩
      · subst hx0
        rcases hms : matchS (c :: cs) with _ | r
        · rw [subSGo_cons_none hms]
          have hrec := ih cs (by simp only [List.length_cons] at hx; omega) hcs
          refine ⟨NormV.cons _ _ (matchV_none_subSGo st hm) hrec.1, ?_⟩
          intro hs
          rw [searchV_cons, hm] at hs
          simp only [Option.isSome_none, Bool.false_or] at hs
          rw [searchV_cons, hrec.2 hs, Bool.or_true]
        · obtain ⟨ds, hshape, hdne, hdall⟩ := matchS_elim hms
          rw [show streakLit = '!' :: '['
              :: ("Day Streak](https://img.shields.io/badge/Day%20Streak-".toList)
              from by decide,
            List.cons_append, List.cons_append] at hshape
          injection hshape with hc hrest
          subst hc
          have hlr : lazyV r = none := by
            rw [hrest, matchV_bang, lazyV_streak_core ds r hdall] at hm
            exact hm
          have hNr : NormV (vocabBadge w) r :=
            NormV_suffix w hcs
              ('[' :: (("Day Streak](https://img.shields.io/badge/Day%20Streak-".toList)
                ++ (ds ++ orangeLit))) r
              (by rw [hrest]; simp [List.append_assoc])
          have hrec := ih r (by
            have := matchS_length hms
            simp only [List.length_cons] at hx this
            omega) hNr
          rw [subSGo_cons_some hms]
          have hlZ : lazyV (subSGo (streakBadge st) r) = none := lazyV_none_subSGo st r hlr
          refine ⟨NormV_sb_append w st _ hlZ hrec.1, ?_⟩
          intro hs
          rw [searchV_cons, hm] at hs
          simp only [Option.isSome_none, Bool.false_or] at hs
          have hskip : searchV cs = searchV r := by
            rw [hrest,
              show '[' :: (("Day Streak](https://img.shields.io/badge/Day%20Streak-".toList)
                ++ (ds ++ (orangeLit ++ r)))
              = ('[' :: (("Day Streak](https://img.shields.io/badge/Day%20Streak-".toList)
                ++ (ds ++ orangeLit))) ++ r from by simp [List.append_assoc]]
            refine searchV_no_bang_skip ?_ r
            intro ch hch
            simp only [List.mem_cons, List.mem_append] at hch
            rcases hch with h1 | h1 | h1 | h1
            · rw [h1]
              decide
            · exact (by decide :
                ∀ c ∈ ("Day Streak](https://img.shields.io/badge/Day%20Streak-".toList),
                  c ≠ '!') ch h1
            · exact isDig_ne (hdall ch h1) (by decide)
            · exact (by decide : ∀ c ∈ orangeLit, c ≠ '!') ch h1
          rw [hskip] at hs
          exact searchV_append_right _ (hrec.2 hs)
      · subst hx0
        rw [subSGo_vb_skip w (streakBadge st) t]
        have hrec := ih t (by
          rw [vocabBadge_cons w] at hx
          simp only [List.length_append, List.length_cons] at hx
          omega) ht
        exact ⟨NormV.badge _ hrec.1, fun _ => searchV_of_matchV (matchV_badge w _)⟩
  exact fun x => main x.length x (Nat.le_refl _)

/-! Splitting into lines and joining back. -/

theorem splitLines_ne_nil (x : List Char) : splitLines x ≠ [] := by
  cases x with
  | nil => simp [splitLines]
  | cons c cs =>
    simp only [splitLines]
    by_cases hc : c = '\n'
    · rw [if_pos hc]
      simp
    · rw [if_neg hc]
      cases splitLines cs with
      | nil => simp
      | cons l ls => simp

theorem splitLines_no_nl : ∀ (x : List Char), ∀ l ∈ splitLines x, ('\n' : Char) ∉ l := by
  intro x
  induction x with
  | nil =>
    intro l hl
    simp only [splitLines, List.mem_singleton] at hl
    subst hl
    simp
  | cons c cs ih =>
    intro l hl
    simp only [splitLines] at hl
    by_cases hc : c = '\n'
    · rw [if_pos hc] at hl
      rcases List.mem_cons.mp hl with h | h
      · subst h
        simp
      · exact ih l h
    · rw [if_neg hc] at hl
      cases hsp : splitLines cs with
      | nil =>
        rw [hsp] at hl
        rcases List.mem_cons.mp hl with h | h
        · subst h
          intro hmem
          rcases List.mem_singleton.mp hmem with h1
          exact hc h1.symm
        · simp at h
      | cons l0 ls =>
        rw [hsp] at hl
        rcases List.mem_cons.mp hl with h | h
        · subst h
          intro hmem
          rcases List.mem_cons.mp hmem with h1 | h1
          · exact hc h1.symm
          · exact ih l0 (by rw [hsp]; simp) h1
        · exact ih l (by rw [hsp]; exact List.mem_cons_of_mem _ h)

theorem joinLines_splitLines : ∀ (x : List Char), joinLines (splitLines x) = x := by
  intro x
  induction x with
  | nil => rfl
  | cons c cs ih =>
    simp only [splitLines]
    by_cases hc : c = '\n'
    · rw [if_pos hc]
      obtain ⟨l, ls, hsp⟩ := List.exists_cons_of_ne_nil (splitLines_ne_nil cs)
      have e : joinLines ([] :: l :: ls) = [] ++ '\n' :: joinLines (l :: ls) := rfl
      rw [hsp, e, List.nil_append, ← hsp, ih, hc]
    · rw [if_neg hc]
      cases hsp : splitLines cs with
      | nil => exact absurd hsp (splitLines_ne_nil cs)
      | cons l ls =>
        cases ls with
        | nil =>
          have e : joinLines [c :: l] = c :: l := rfl
          rw [e]
          rw [hsp] at ih
          have h2 : l = cs := ih
          rw [h2]
        | cons l2 ls' =>
          have e : joinLines ((c :: l) :: l2 :: ls')
              = (c :: l) ++ '\n' :: joinLines (l2 :: ls') := rfl
          rw [e, List.cons_append]
          rw [hsp] at ih
          have e2 : joinLines (l :: l2 :: ls') = l ++ '\n' :: joinLines (l2 :: ls') := rfl
          rw [e2] at ih
          rw [ih]

theorem searchV_joinLines : ∀ (L : List (List Char)),
    searchV (joinLines L) = L.any searchV := by
  intro L
  induction L with
  | nil => rfl
  | cons l L' ih =>
    cases L' with
    | nil => simp [joinLines, List.any_cons]
    | cons l2 L'' =>
      have e : joinLines (l :: l2 :: L'') = l ++ '\n' :: joinLines (l2 :: L'') := rfl
      rw [e, searchV_nl, ih]
      simp [List.any_cons]

theorem searchS_joinLines : ∀ (L : List (List Char)),
    searchS (joinLines L) = L.any searchS := by
  intro L
  induction L with
  | nil => rfl
  | cons l L' ih =>
    cases L' with
    | nil => simp [joinLines, List.any_cons]
    | cons l2 L'' =>
      have e : joinLines (l :: l2 :: L'') = l ++ '\n' :: joinLines (l2 :: L'') := rfl
      rw [e, searchS_nl, ih]
      simp [List.any_cons]

theorem subVGo_joinLines (B : List Char) : ∀ (L : List (List Char)),
    subVGo B (joinLines L) = joinLines (L.map (subVGo B)) := by
  intro L
  induction L with
  | nil => exact subVGo_nil B
  | cons l L' ih =>
    cases L' with
    | nil => rfl
    | cons l2 L'' =>
      have e : joinLines (l :: l2 :: L'') = l ++ '\n' :: joinLines (l2 :: L'') := rfl
      rw [e, subVGo_nl, ih]
      rfl

theorem subSGo_joinLines (S : List Char) : ∀ (L : List (List Char)),
    subSGo S (joinLines L) = joinLines (L.map (subSGo S)) := by
  intro L
  induction L with
  | nil => exact subSGo_nil S
  | cons l L' ih =>
    cases L' with
    | nil => rfl
    | cons l2 L'' =>
      have e : joinLines (l :: l2 :: L'') = l ++ '\n' :: joinLines (l2 :: L'') := rfl
      rw [e, subSGo_nl, ih]
      rfl

theorem append_nl_cancel :
    ∀ (a b x y : List Char), a ++ '\n' :: x = b ++ '\n' :: y →
      ('\n' : Char) ∉ a → ('\n' : Char) ∉ b → a = b ∧ x = y := by
  intro a
  induction a with
  | nil =>
    intro b x y h ha hb
    cases b with
    | nil =>
      rw [List.nil_append, List.nil_append] at h
      injection h with _ h2
      exact ⟨rfl, h2⟩
    | cons b0 b' =>
      rw [List.nil_append, List.cons_append] at h
      injection h with h1 h2
      exact absurd (show ('\n' : Char) ∈ b0 :: b' from by rw [← h1]; simp) hb
  | cons a0 a' ih =>
    intro b x y h ha hb
    cases b with
    | nil =>
      rw [List.nil_append, List.cons_append] at h
      injection h with h1 h2
      exact absurd (show ('\n' : Char) ∈ a0 :: a' from by rw [h1]; simp) ha
    | cons b0 b' =>
      rw [List.cons_append, List.cons_append] at h
      injection h with h1 h2
      obtain ⟨hab, hxy⟩ := ih b' x y h2 (fun hm => ha (by simp [hm]))
        (fun hm => hb (by simp [hm]))
      exact ⟨by rw [h1, hab], hxy⟩

theorem joinLines_inj :
    ∀ (L1 L2 : List (List Char)), L1.length = L2.length →
      (∀ l ∈ L1, ('\n' : Char) ∉ l) → (∀ l ∈ L2, ('\n' : Char) ∉ l) →
      joinLines L1 = joinLines L2 → L1 = L2 := by
  intro L1
  induction L1 with
  | nil =>
    intro L2 hlen _ _ _
    cases L2 with
    | nil => rfl
    | cons _ _ => simp at hlen
  | cons l1 L1' ih =>
    intro L2 hlen h1 h2 hj
    cases L2 with
    | nil => simp at hlen
    | cons l2 L2' =>
      cases L1' with
      | nil =>
        cases L2' with
        | nil =>
          have h3 : l1 = l2 := hj
          rw [h3]
        | cons _ _ => simp at hlen
      | cons l1b L1'' =>
        cases L2' with
        | nil => simp at hlen
        | cons l2b L2'' =>
          have e1 : joinLines (l1 :: l1b :: L1'') = l1 ++ '\n' :: joinLines (l1b :: L1'') := rfl
          have e2 : joinLines (l2 :: l2b :: L2'') = l2 ++ '\n' :: joinLines (l2b :: L2'') := rfl
          rw [e1, e2] at hj
          obtain ⟨hl, hrest⟩ := append_nl_cancel _ _ _ _ hj (h1 l1 (by simp)) (h2 l2 (by simp))
          have h4 := ih (l2b :: L2'') (by simp only [List.length_cons] at hlen ⊢; omega)
            (fun l hm => h1 l (List.mem_cons_of_mem _ hm))
            (fun l hm => h2 l (List.mem_cons_of_mem _ hm)) hrest
          rw [hl, h4]

theorem map_eq_self_mem {α : Type} (f : α → α) :
    ∀ L : List α, L.map f = L → ∀ a ∈ L, f a = a := by
  intro L
  induction L with
  | nil =>
    intro _ a ha
    simp at ha
  | cons x xs ih =>
    intro h a ha
    simp only [List.map_cons] at h
    injection h with h1 h2
    rcases List.mem_cons.mp ha with h3 | h3
    · rw [h3]
      exact h1
    · exact ih h2 a h3

theorem map_congr_self {α : Type} (f : α → α) :
    ∀ L : List α, (∀ a ∈ L, f a = a) → L.map f = L := by
  intro L
  induction L with
  | nil =>
    intro _
    rfl
  | cons x xs ih =>
    intro h
    simp only [List.map_cons]
    rw [h x (by simp), ih (fun a ha => h a (by simp [ha]))]

theorem subVGo_no_nl (w : Nat) :
    ∀ s : List Char, ('\n' : Char) ∉ s → ('\n' : Char) ∉ subVGo (vocabBadge w) s := by
  have main : ∀ n (s : List Char), s.length ≤ n → ('\n' : Char) ∉ s →
      ('\n' : Char) ∉ subVGo (vocabBadge w) s := by
    intro n
    induction n with
    | zero =>
      intro s hs h
      have : s = [] := List.length_eq_zero.mp (Nat.le_zero.mp hs)
      subst this
      rw [subVGo_nil]
      exact h
    | succ n ih =>
      intro s hs h
      cases s with
      | nil =>
        rw [subVGo_nil]
        exact h
      | cons c cs =>
        rcases hm : matchV (c :: cs) with _ | r
        · rw [subVGo_cons_none hm]
          intro hmem
          rcases List.mem_cons.mp hmem with h1 | h1
          · exact h (by rw [h1]; exact List.mem_cons_self _ _)
          · exact ih cs (by simp only [List.length_cons] at hs; omega)
              (fun hm2 => h (List.mem_cons_of_mem _ hm2)) h1
        · rw [subVGo_cons_some hm]
          intro hmem
          rcases List.mem_append.mp hmem with h1 | h1
          · exact nl_not_in_vocabBadge w h1
          · obtain ⟨m, hsplit, _, _⟩ := matchV_elim hm
            have hr : ('\n' : Char) ∉ r :=
              fun hm2 => h (by rw [hsplit]; exact List.mem_append_right _ hm2)
            exact ih r (by
              have := matchV_length hm
              simp only [List.length_cons] at hs this
              omega) hr h1
  exact fun s => main s.length s (Nat.le_refl _)

/-! The streak-badge insertion loop. -/

theorem insertStreak_mem (sb : List Char) :
    ∀ (ls : List (List Char)) (l : List Char), l ∈ ls → l ∈ insertStreakLines sb ls := by
  intro ls
  induction ls with
  | nil =>
    intro l h
    simp at h
  | cons l0 ls' ih =>
    intro l h
    simp only [insertStreakLines]
    by_cases hk : hasVocabKey l0 = true
    · rw [if_pos hk]
      rcases List.mem_cons.mp h with h1 | h1
      · simp [h1]
      · simp [h1]
    · rw [if_neg hk]
      rcases List.mem_cons.mp h with h1 | h1
      · simp [h1]
      · exact List.mem_cons_of_mem _ (ih l h1)

theorem insertStreak_mem_inv (sb : List Char) :
    ∀ (ls : List (List Char)) (l : List Char),
      l ∈ insertStreakLines sb ls → l ∈ ls ∨ l = sb := by
  intro ls
  induction ls with
  | nil =>
    intro l h
    simp [insertStreakLines] at h
  | cons l0 ls' ih =>
    intro l h
    simp only [insertStreakLines] at h
    by_cases hk : hasVocabKey l0 = true
    · rw [if_pos hk] at h
      rcases List.mem_cons.mp h with h1 | h1
      · exact Or.inl (by simp [h1])
      · rcases List.mem_cons.mp h1 with h2 | h2
        · exact Or.inr h2
        · exact Or.inl (List.mem_cons_of_mem _ h2)
    · rw [if_neg hk] at h
      rcases List.mem_cons.mp h with h1 | h1
      · exact Or.inl (by simp [h1])
      · rcases ih l h1 with h2 | h2
        · exact Or.inl (List.mem_cons_of_mem _ h2)
        · exact Or.inr h2

theorem insertStreak_sb_mem (sb : List Char) :
    ∀ ls : List (List Char), ls.any hasVocabKey = true → sb ∈ insertStreakLines sb ls := by
  intro ls
  induction ls with
  | nil =>
    intro h
    simp at h
  | cons l0 ls' ih =>
    intro h
    simp only [insertStreakLines]
    by_cases hk : hasVocabKey l0 = true
    · rw [if_pos hk]
      simp
    · rw [if_neg hk]
      simp only [List.any_cons] at h
      rcases Bool.or_eq_true_iff.mp h with h1 | h1
      · exact absurd h1 hk
      · exact List.mem_cons_of_mem _ (ih h1)

theorem insertStreak_id_of_no_key (sb : List Char) :
    ∀ ls : List (List Char), ls.any hasVocabKey = false → insertStreakLines sb ls = ls := by
  intro ls
  induction ls with
  | nil =>
    intro _
    rfl
  | cons l0 ls' ih =>
    intro h
    simp only [List.any_cons, Bool.or_eq_false_iff] at h
    simp only [insertStreakLines]
    rw [if_neg (by rw [h.1]; exact Bool.false_ne_true), ih h.2]

/-! Neither badge contains a match for the other pattern. -/

theorem searchV_false_of_no_matchV :
    ∀ s : List Char, (∀ u t : List Char, s = u ++ t → matchV t = none) →
      searchV s = false := by
  intro s
  induction s with
  | nil =>
    intro _
    rfl
  | cons c cs ih =>
    intro h
    rw [searchV_cons, h [] (c :: cs) rfl]
    simp only [Option.isSome_none, Bool.false_or]
    exact ih (fun u t ht => h (c :: u) t (by rw [List.cons_append, ht]))

theorem searchS_false_of_no_matchS :
    ∀ s : List Char, (∀ u t : List Char, s = u ++ t → matchS t = none) →
      searchS s = false := by
  intro s
  induction s with
  | nil =>
    intro _
    rfl
  | cons c cs ih =>
    intro h
    rw [searchS_cons, h [] (c :: cs) rfl]
    simp only [Option.isSome_none, Bool.false_or]
    exact ih (fun u t ht => h (c :: u) t (by rw [List.cons_append, ht]))

theorem searchV_streakBadge (st : Nat) : searchV (streakBadge st) = false := by
  apply searchV_false_of_no_matchV
  intro u t ht
  cases t with
  | nil => exact matchV_nil
  | cons d t' =>
    cases u with
    | nil =>
      rw [List.nil_append] at ht
      rw [← ht]
      have h0 := matchV_sb_append st [] lazyV_nil
      rw [List.append_nil] at h0
      exact h0
    | cons e u' =>
      rw [streakBadge_cons st, List.cons_append] at ht
      injection ht with h1 h2
      exact matchV_head_ne
        (sb_tail_no_bang st d (by rw [h2]; exact List.mem_append_right _ (by simp)))

theorem searchS_vocabBadge (w : Nat) : searchS (vocabBadge w) = false := by
  apply searchS_false_of_no_matchS
  intro u t ht
  cases t with
  | nil => exact matchS_nil
  | cons d t' =>
    cases u with
    | nil =>
      rw [List.nil_append] at ht
      rw [← ht]
      have h0 := matchS_vocabBadge w []
      rw [List.append_nil] at h0
      exact h0
    | cons e u' =>
      rw [vocabBadge_cons w, List.cons_append] at ht
      injection ht with h1 h2
      exact matchS_head_ne
        (vb_tail_no_bang w d (by rw [h2]; exact List.mem_append_right _ (by simp)))

/-! A whole-document fixed point of the vocab rewriter is fixed linewise. -/

theorem subVGo_lines_fixed (w : Nat) {D : List Char}
    (h : subVGo (vocabBadge w) D = D) :
    ∀ l ∈ splitLines D, subVGo (vocabBadge w) l = l := by
  have h1 : subVGo (vocabBadge w) (joinLines (splitLines D)) = joinLines (splitLines D) := by
    rw [joinLines_splitLines]
    exact h
  rw [subVGo_joinLines] at h1
  have h2 : (splitLines D).map (subVGo (vocabBadge w)) = splitLines D := by
    apply joinLines_inj _ _ (List.length_map _ _) ?_ (splitLines_no_nl D) h1
    intro l hl
    obtain ⟨l0, hl0, hfl⟩ := List.mem_map.mp hl
    rw [← hfl]
    exact subVGo_no_nl w l0 (splitLines_no_nl D l0 hl0)
  exact fun l hl => map_eq_self_mem _ _ h2 l hl

/-! Small helpers on `List.any`. -/

theorem any_eq_false_mem {α : Type} (p : α → Bool) :
    ∀ L : List α, L.any p = false → ∀ a ∈ L, p a = false := by
  intro L
  induction L with
  | nil =>
    intro _ a ha
    simp at ha
  | cons x xs ih =>
    intro h a ha
    simp only [List.any_cons, Bool.or_eq_false_iff] at h
    rcases List.mem_cons.mp ha with h1 | h1
    · rw [h1]
      exact h.1
    · exact ih h.2 a h1

theorem any_eq_true_elim {α : Type} (p : α → Bool) :
    ∀ L : List α, L.any p = true → ∃ a, a ∈ L ∧ p a = true := by
  intro L
  induction L with
  | nil =>
    intro h
    simp at h
  | cons x xs ih =>
    intro h
    simp only [List.any_cons] at h
    rcases Bool.or_eq_true_iff.mp h with h1 | h1
    · exact ⟨x, by simp, h1⟩
    · obtain ⟨a, ha, hpa⟩ := ih h1
      exact ⟨a, List.mem_cons_of_mem _ ha, hpa⟩

theorem any_eq_true_of_mem {α : Type} (p : α → Bool) :
    ∀ (L : List α) (a : α), a ∈ L → p a = true → L.any p = true := by
  intro L
  induction L with
  | nil =>
    intro a ha _
    simp at ha
  | cons x xs ih =>
    intro a ha hpa
    simp only [List.any_cons]
    rcases List.mem_cons.mp ha with h1 | h1
    · rw [← h1, hpa, Bool.true_or]
    · rw [ih a h1 hpa, Bool.or_true]

/-- C2: applying `update_readme_badge` twice with the same vocabulary count
and streak count produces output identical to applying it once: the second
run finds the badges written by the first run (so it takes the substitution
branches) and substitutes byte-identical replacement text, never inserting
duplicate badge lines. -/
theorem C2_badge_update_idempotent (w st : Nat) (content : List Char) :
    update_readme_badge w st (update_readme_badge w st content)
      = update_readme_badge w st content := by
  have hfix : ∀ E : List Char, searchV E = true → subVGo (vocabBadge w) E = E →
      searchS E = true → subSGo (streakBadge st) E = E →
      update_readme_badge w st E = E := by
    intro E h1 h2 h3 h4
    simp only [update_readme_badge]
    rw [if_pos h1, h2, if_pos h3, h4]
  have hsbfix : subSGo (streakBadge st) (streakBadge st) = streakBadge st := by
    have h0 := subSGo_badge_self st []
    rw [List.append_nil, subSGo_nil, List.append_nil] at h0
    exact h0
  have hvbfix : subVGo (vocabBadge w) (vocabBadge w) = vocabBadge w := by
    have h0 := subVGo_badge_self w []
    rw [List.append_nil, subVGo_nil, List.append_nil] at h0
    exact h0
  have hsbS : searchS (streakBadge st) = true := by
    have h0 := matchS_badge st []
    rw [List.append_nil] at h0
    exact searchS_of_matchS h0
  have hvbV : searchV (vocabBadge w) = true := by
    have h0 := matchV_badge w []
    rw [List.append_nil] at h0
    exact searchV_of_matchV h0
  have hDfacts : ∀ D : List Char, NormV (vocabBadge w) D → searchV D = true →
      update_readme_badge w st
          (if searchS D = true then subSGo (streakBadge st) D
           else joinLines (insertStreakLines (streakBadge st) (splitLines D)))
        = (if searchS D = true then subSGo (streakBadge st) D
           else joinLines (insertStreakLines (streakBadge st) (splitLines D))) := by
    intro D hN hsV
    have hDfix : subVGo (vocabBadge w) D = D := NormV_fix w hN
    by_cases hsS : searchS D = true
    · rw [if_pos hsS]
      have hcross := NormV_subSGo w st D hN
      exact hfix _ (hcross.2 hsV) (NormV_fix w hcross.1)
        (searchS_subSGo st D hsS) (subSGo_idem st D)
    · rw [if_neg hsS]
      have hsS' : searchS D = false := Bool.eq_false_iff.mpr hsS
      have hlinesV : ∀ l ∈ splitLines D, subVGo (vocabBadge w) l = l :=
        subVGo_lines_fixed w hDfix
      have hlinesS : ∀ l ∈ splitLines D, searchS l = false := by
        intro l hl
        have h0 : searchS (joinLines (splitLines D)) = false := by
          rw [joinLines_splitLines]
          exact hsS'
        rw [searchS_joinLines] at h0
        exact any_eq_false_mem _ _ h0 l hl
      by_cases hkey : (splitLines D).any hasVocabKey = true
      · have hmem_inv := insertStreak_mem_inv (streakBadge st) (splitLines D)
        have hmapV : (insertStreakLines (streakBadge st) (splitLines D)).map
              (subVGo (vocabBadge w))
            = insertStreakLines (streakBadge st) (splitLines D) := by
          apply map_congr_self
          intro l hl
          rcases hmem_inv l hl with h1 | h1
          · exact hlinesV l h1
          · rw [h1]
            exact subVGo_id_of_not_search _ _ (searchV_streakBadge st)
        have hmapS : (insertStreakLines (streakBadge st) (splitLines D)).map
              (subSGo (streakBadge st))
            = insertStreakLines (streakBadge st) (splitLines D) := by
          apply map_congr_self
          intro l hl
          rcases hmem_inv l hl with h1 | h1
          · exact subSGo_id_of_not_search _ _ (hlinesS l h1)
          · rw [h1]
            exact hsbfix
        have hR2 : subVGo (vocabBadge w)
              (joinLines (insertStreakLines (streakBadge st) (splitLines D)))
            = joinLines (insertStreakLines (streakBadge st) (splitLines D)) := by
          rw [subVGo_joinLines, hmapV]
        have hR4 : subSGo (streakBadge st)
              (joinLines (insertStreakLines (streakBadge st) (splitLines D)))
            = joinLines (insertStreakLines (streakBadge st) (splitLines D)) := by
          rw [subSGo_joinLines, hmapS]
        have hR1 : searchV
              (joinLines (insertStreakLines (streakBadge st) (splitLines D))) = true := by
          rw [searchV_joinLines]
          have h0 : searchV (joinLines (splitLines D)) = true := by
            rw [joinLines_splitLines]
            exact hsV
          rw [searchV_joinLines] at h0
          obtain ⟨l, hl, hpl⟩ := any_eq_true_elim _ _ h0
          exact any_eq_true_of_mem _ _ l (insertStreak_mem _ _ l hl) hpl
        have hR3 : searchS
              (joinLines (insertStreakLines (streakBadge st) (splitLines D))) = true := by
          rw [searchS_joinLines]
          exact any_eq_true_of_mem _ _ (streakBadge st)
            (insertStreak_sb_mem _ _ hkey) hsbS
        exact hfix _ hR1 hR2 hR3 hR4
      · have hins : insertStreakLines (streakBadge st) (splitLines D) = splitLines D :=
          insertStreak_id_of_no_key _ _ (Bool.eq_false_iff.mpr hkey)
        rw [hins, joinLines_splitLines]
        simp only [update_readme_badge]
        rw [if_pos hsV, hDfix, if_neg hsS, hins, joinLines_splitLines]
  by_cases hsV : searchV content = true
  · have e1 : update_readme_badge w st content
        = (if searchS (subVGo (vocabBadge w) content) = true
           then subSGo (streakBadge st) (subVGo (vocabBadge w) content)
           else joinLines (insertStreakLines (streakBadge st)
             (splitLines (subVGo (vocabBadge w) content)))) := by
      simp only [update_readme_badge]
      rw [if_pos hsV]
    rw [e1]
    exact hDfacts _ (subVGo_NormV w content) (searchV_subVGo w content hsV)
  · obtain ⟨l0, ls, hsp⟩ := List.exists_cons_of_ne_nil (splitLines_ne_nil content)
    have hsV' : searchV content = false := Bool.eq_false_iff.mpr hsV
    have hlines : ∀ l ∈ splitLines content, searchV l = false := by
      intro l hl
      have h0 : searchV (joinLines (splitLines content)) = false := by
        rw [joinLines_splitLines]
        exact hsV'
      rw [searchV_joinLines] at h0
      exact any_eq_false_mem _ _ h0 l hl
    have e1 : update_readme_badge w st content
        = (if searchS (joinLines (l0 :: [] :: vocabBadge w :: ls)) = true
           then subSGo (streakBadge st) (joinLines (l0 :: [] :: vocabBadge w :: ls))
           else joinLines (insertStreakLines (streakBadge st)
             (splitLines (joinLines (l0 :: [] :: vocabBadge w :: ls))))) := by
      simp only [update_readme_badge]
      rw [if_neg hsV, hsp]
      rfl
    rw [e1]
    have hmap : (l0 :: [] :: vocabBadge w :: ls).map (subVGo (vocabBadge w))
        = l0 :: [] :: vocabBadge w :: ls := by
      apply map_congr_self
      intro l hl
      rcases List.mem_cons.mp hl with h1 | h1
      · rw [h1]
        exact subVGo_id_of_not_search _ _ (hlines l0 (by rw [hsp]; simp))
      · rcases List.mem_cons.mp h1 with h2 | h2
        · rw [h2]
          exact subVGo_nil _
        · rcases List.mem_cons.mp h2 with h3 | h3
          · rw [h3]
            exact hvbfix
          · exact subVGo_id_of_not_search _ _
              (hlines l (by rw [hsp]; exact List.mem_cons_of_mem _ h3))
    have hDfix : subVGo (vocabBadge w) (joinLines (l0 :: [] :: vocabBadge w :: ls))
        = joinLines (l0 :: [] :: vocabBadge w :: ls) := by
      rw [subVGo_joinLines, hmap]
    have hsVD : searchV (joinLines (l0 :: [] :: vocabBadge w :: ls)) = true := by
      rw [searchV_joinLines]
      exact any_eq_true_of_mem _ _ (vocabBadge w) (by simp) hvbV
    exact hDfacts _ (NormV_complete w _ hDfix) hsVD

end Spec2Proof
